import Mathlib

/-!
# Verification of the gemstone source-to-source compiler core

Shallow embedding of `src/gemcode.py`: the `Lexer`, `Parser` and
`CodeGenerator` classes, together with the `Compiler.compile` pipeline.
The lexer and parser are embedded as fuel-indexed structurally recursive
functions (the fuel is instantiated generously enough in the top-level
entry points; lemmas below show it never runs out), so that every
definition evaluates inside the kernel.

Python's in-lexer `raise ValueError` (the spec's `LexError`) is modelled
by `LexErr.unrecognized`; the `ValueError` that `float(...)` raises on a
malformed numeric span such as `1.2.3` is modelled by `LexErr.badFloat`.
The parser's `SyntaxError`s are modelled by `SynError.expected` and
`SynError.unexpectedToken`; `SynError.noneCrash` models the Python
`TypeError` that would occur if `current_token` were `None` (it is proved
unreachable on EOF-terminated token lists), and `SynError.fuelOut` /
`LexErr.fuelOut` mark fuel exhaustion (proved unreachable for the fuel
used by the entry points).
-/

namespace Gemstone

instance {ε α : Type} [DecidableEq ε] [DecidableEq α] :
    DecidableEq (Except ε α) := fun a b =>
  match a, b with
  | .ok x, .ok y => decidable_of_iff (x = y) (by simp)
  | .error e, .error e' => decidable_of_iff (e = e') (by simp)
  | .ok _, .error _ => isFalse (by simp)
  | .error _, .ok _ => isFalse (by simp)

/-- Tokens of `Lexer.tokenize`: the Python implementation uses pairs
`(kind, payload)`; each kind/payload shape gets one constructor.
The `FLOAT` payload (Python `float(span)`) is represented exactly as a
rational number; no claim depends on binary floating-point rounding. -/
inductive Token where
  | keyword (s : String)
  | identifier (s : String)
  | integer (n : Nat)
  | float (q : ℚ)
  | str (s : String)
  | operator (s : String)
  | assign
  | semicolon
  | lparen
  | rparen
  | lbrace
  | rbrace
  | eof
deriving DecidableEq, Repr

/-- The kind tag of a token, i.e. `token[0]` of the Python pair. -/
def Token.kind : Token → String
  | .keyword _ => "KEYWORD"
  | .identifier _ => "IDENTIFIER"
  | .integer _ => "INTEGER"
  | .float _ => "FLOAT"
  | .str _ => "STRING"
  | .operator _ => "OPERATOR"
  | .assign => "ASSIGN"
  | .semicolon => "SEMICOLON"
  | .lparen => "LPAREN"
  | .rparen => "RPAREN"
  | .lbrace => "LBRACE"
  | .rbrace => "RBRACE"
  | .eof => "EOF"

/-- Single-quote character, used by Python `repr` of strings. -/
def sq : String := String.singleton (Char.ofNat 39)

/-- Python `str`/`repr` of a token pair, as interpolated into
`SyntaxError` messages (`f"Unexpected token: {self.current_token}"`).
Embedded quotes inside string payloads are not re-escaped (no claim
exercises that). The float payload's Python `repr` is abstracted by the
rational's textual form. -/
def Token.pyRepr : Token → String
  | .keyword s => "(" ++ sq ++ "KEYWORD" ++ sq ++ ", " ++ sq ++ s ++ sq ++ ")"
  | .identifier s => "(" ++ sq ++ "IDENTIFIER" ++ sq ++ ", " ++ sq ++ s ++ sq ++ ")"
  | .integer n => "(" ++ sq ++ "INTEGER" ++ sq ++ ", " ++ toString n ++ ")"
  | .float q => "(" ++ sq ++ "FLOAT" ++ sq ++ ", " ++ toString q ++ ")"
  | .str s => "(" ++ sq ++ "STRING" ++ sq ++ ", " ++ sq ++ s ++ sq ++ ")"
  | .operator s => "(" ++ sq ++ "OPERATOR" ++ sq ++ ", " ++ sq ++ s ++ sq ++ ")"
  | .assign => "(" ++ sq ++ "ASSIGN" ++ sq ++ ", " ++ sq ++ "=" ++ sq ++ ")"
  | .semicolon => "(" ++ sq ++ "SEMICOLON" ++ sq ++ ", " ++ sq ++ ";" ++ sq ++ ")"
  | .lparen => "(" ++ sq ++ "LPAREN" ++ sq ++ ", " ++ sq ++ "(" ++ sq ++ ")"
  | .rparen => "(" ++ sq ++ "RPAREN" ++ sq ++ ", " ++ sq ++ ")" ++ sq ++ ")"
  | .lbrace => "(" ++ sq ++ "LBRACE" ++ sq ++ ", " ++ sq ++ "\x7b" ++ sq ++ ")"
  | .rbrace => "(" ++ sq ++ "RBRACE" ++ sq ++ ", " ++ sq ++ "\x7d" ++ sq ++ ")"
  | .eof => "(" ++ sq ++ "EOF" ++ sq ++ ", None)"

/-- Failure modes of the lexer.  `unrecognized` is the explicit
`raise ValueError(f"Unrecognized character: {c}")`; `badFloat` is the
`ValueError` raised by Python's `float(span)` on a span with several
decimal points; `fuelOut` marks fuel exhaustion of the embedding (proved
unreachable for the fuel used by `tokenize`). -/
inductive LexErr where
  | unrecognized (c : Char)
  | badFloat (span : String)
  | fuelOut
deriving DecidableEq, Repr

/-- Message carried by the lexer's own `ValueError`. -/
def LexErr.message : LexErr → String
  | .unrecognized c => "Unrecognized character: " ++ c.toString
  | .badFloat span => "could not convert string to float: " ++ sq ++ span ++ sq
  | .fuelOut => ""

/-- The fixed keyword set of `Lexer.__init__`. -/
def keywords : List String :=
  ["print", "if", "else", "while", "for", "return", "int", "float", "string"]

/-- Loop condition of `Lexer.get_identifier`: `isalnum() or == '_'`. -/
def isIdentChar (c : Char) : Bool := c.isAlphanum || c = '_'

/-- Loop condition of `Lexer.get_number`: `isdigit() or == '.'`. -/
def isNumChar (c : Char) : Bool := c.isDigit || c = '.'

/-- Value of a digit character. -/
def digitVal (c : Char) : Nat := c.toNat - 48

/-- Python `int(span)` on a span of decimal digits. -/
def natOfDigits (ds : List Char) : Nat :=
  ds.foldl (fun a c => a * 10 + digitVal c) 0

/-- Python `float(span)` on a span `intpart.fracpart` with exactly one
decimal point, as an exact rational (decimal reading of the span). -/
def ratOfSpan (span : List Char) : ℚ :=
  let ipart := span.takeWhile (fun c => c ≠ '.')
  let fpart := (span.dropWhile (fun c => c ≠ '.')).tail
  mkRat (natOfDigits ipart * 10 ^ fpart.length + natOfDigits fpart) (10 ^ fpart.length)

/-- `Lexer.get_number` applied to a maximal span of digits/dots:
`FLOAT` with the parsed value if a `.` occurs (failing like Python's
`float` when the span has more than one `.`), else `INTEGER`. -/
def numberToken (span : List Char) : Except LexErr Token :=
  if span.contains '.' then
    if span.count '.' = 1 then .ok (.float (ratOfSpan span))
    else .error (.badFloat (String.mk span))
  else .ok (.integer (natOfDigits span))

/-- `Lexer.get_identifier`: consume the maximal alphanumeric/underscore
span (the current character included) and classify it as `KEYWORD` or
`IDENTIFIER`; returns the token and the unconsumed remainder. -/
def get_identifier (cs : List Char) : Token × List Char :=
  let word := cs.takeWhile isIdentChar
  let rest := cs.dropWhile isIdentChar
  (if keywords.contains (String.mk word) then .keyword (String.mk word)
   else .identifier (String.mk word), rest)

/-- `Lexer.get_number`: consume the maximal digits-and-dots span (the
current character included) and convert it as `int`/`float` do; returns
the token and the unconsumed remainder, or the conversion error. -/
def get_number (cs : List Char) : Except LexErr (Token × List Char) :=
  let span := cs.takeWhile isNumChar
  let rest := cs.dropWhile isNumChar
  match numberToken span with
  | .error e => .error e
  | .ok t => .ok (t, rest)

/-- `Lexer.get_string`, applied to the characters after the opening
quote: consume verbatim up to the next `"` (exclusive) or end of input,
then skip the closing quote if present; returns the `STRING` token and
the unconsumed remainder. -/
def get_string (cs : List Char) : Token × List Char :=
  let value := cs.takeWhile (fun x => x ≠ '"')
  let after := cs.dropWhile (fun x => x ≠ '"')
  (Token.str (String.mk value),
   if after.head? = some '"' then after.tail else after)

/-- `tokens.append(tok)` followed by the rest of the tokenize loop:
prepend the token to the continuation's result, propagating its error
(a raised exception discards the partial token list). -/
def consTok (tok : Token) (r : Except LexErr (List Token)) :
    Except LexErr (List Token) :=
  match r with
  | .error e => .error e
  | .ok ts => .ok (tok :: ts)

/-- Fuel-indexed embedding of the `Lexer.tokenize` loop over the
remaining characters.  Each branch mirrors one `if` of the Python loop,
in the same order. -/
def tokenizeF : Nat → List Char → Except LexErr (List Token)
  | 0, _ => .error .fuelOut
  | _ + 1, [] => .ok [.eof]
  | f + 1, c :: cs =>
    if c.isWhitespace then
      tokenizeF f cs
    else if c.isAlpha || c = '_' then
      consTok (get_identifier (c :: cs)).1 (tokenizeF f (get_identifier (c :: cs)).2)
    else if c.isDigit then
      match get_number (c :: cs) with
      | .error e => .error e
      | .ok (tok, rest) => consTok tok (tokenizeF f rest)
    else if c = '"' then
      consTok (get_string cs).1 (tokenizeF f (get_string cs).2)
    else if c = '+' then
      consTok (.operator "+") (tokenizeF f cs)
    else if c = '-' then
      consTok (.operator "-") (tokenizeF f cs)
    else if c = '*' then
      consTok (.operator "*") (tokenizeF f cs)
    else if c = '/' then
      consTok (.operator "/") (tokenizeF f cs)
    else if c = '=' then
      if cs.head? = some '=' then
        consTok (.operator "==") (tokenizeF f cs.tail)
      else
        consTok .assign (tokenizeF f cs)
    else if c = ';' then
      consTok .semicolon (tokenizeF f cs)
    else if c = '(' then
      consTok .lparen (tokenizeF f cs)
    else if c = ')' then
      consTok .rparen (tokenizeF f cs)
    else if c = '{' then
      consTok .lbrace (tokenizeF f cs)
    else if c = '}' then
      consTok .rbrace (tokenizeF f cs)
    else
      .error (.unrecognized c)

/-- `Lexer.tokenize` on a source string (the lexer consumes at least one
character per loop iteration, so `length + 1` units of fuel always
suffice; see `tokenizeF_fuel_irrelevant`). -/
def tokenize (s : String) : Except LexErr (List Token) :=
  tokenizeF (s.data.length + 1) s.data

/-- A character recognized by some branch of the `tokenize` loop. -/
def recognizedChar (c : Char) : Bool :=
  c.isWhitespace || c.isAlpha || c = '_' || c.isDigit || c = '"' ||
  c = '+' || c = '-' || c = '*' || c = '/' || c = '=' || c = ';' ||
  c = '(' || c = ')' || c = '{' || c = '}'

namespace AST

/-- Expression nodes of the parser's AST: `BinaryExpression`,
`Literal` (with its `value` and `dataType` fields) and `Identifier`. -/
inductive LitVal where
  | intV (n : Nat)
  | floatV (q : ℚ)
  | strV (s : String)
deriving DecidableEq, Repr

inductive Expr where
  | bin (op : String) (left right : Expr)
  | lit (value : LitVal) (dataType : String)
  | ident (name : String)
deriving DecidableEq, Repr

mutual
/-- Statement nodes: `PrintStatement`, `AssignmentStatement`, `Block`. -/
inductive Stmt where
  | printS (e : Expr)
  | assignS (name : String) (value : Expr)
  | blockS (body : StmtList)

/-- An ordered sequence of statements (the `body` lists of `Program` and
`Block`). -/
inductive StmtList where
  | nil
  | cons (s : Stmt) (ss : StmtList)
end

/-- The root node: `{'type': 'Program', 'body': statements}`. -/
structure Program where
  body : StmtList

end AST

open AST

/-- Failure modes of the parser.  `expected` and `unexpectedToken` are
the two `raise SyntaxError(...)` forms of the source; `noneCrash` models
the Python `TypeError` of subscripting `current_token` when it is `None`
(proved unreachable on EOF-terminated token lists); `fuelOut` marks fuel
exhaustion of the embedding (proved unreachable for the fuel used by
`parse`). -/
inductive SynError where
  | expected (exp : String) (got : String)
  | unexpectedToken (t : Token)
  | noneCrash
  | fuelOut
deriving DecidableEq, Repr

/-- Message carried by the parser's `SyntaxError`. -/
def SynError.message : SynError → String
  | .expected e g => "Expected " ++ e ++ ", got " ++ g
  | .unexpectedToken t => "Unexpected token: " ++ t.pyRepr
  | .noneCrash => ""
  | .fuelOut => ""

/-- Parser results: the produced node together with the remaining
(not yet consumed) tokens, or the propagated first error. -/
abbrev PRes (α : Type) := Except SynError (α × List Token)

/-- Sequencing of two parsing steps: run the first, feed its node and
remaining tokens to the second, propagating the first raised
`SyntaxError` (no recovery, no partial AST). -/
def pbind {α β : Type} (r : PRes α) (g : α → List Token → PRes β) : PRes β :=
  match r with
  | .error e => .error e
  | .ok (a, rest) => g a rest

/-- `Parser.eat`: consume one token of the expected kind, else
`SyntaxError(f"Expected {token_type}, got {self.current_token[0]}")`. -/
def eat (expectedKind : String) : List Token → PRes Token
  | [] => .error .noneCrash
  | t :: rest =>
    if t.kind = expectedKind then .ok (t, rest)
    else .error (.expected expectedKind t.kind)

mutual

/-- `Parser.factor`:
`Factor -> INTEGER | FLOAT | STRING | IDENTIFIER | '(' Expression ')'`. -/
def factorF : Nat → List Token → PRes Expr
  | 0, _ => .error .fuelOut
  | f + 1, toks =>
    match toks with
    | [] => .error .noneCrash
    | .integer n :: rest => .ok (.lit (.intV n) "int", rest)
    | .float q :: rest => .ok (.lit (.floatV q) "float", rest)
    | .str s :: rest => .ok (.lit (.strV s) "string", rest)
    | .identifier x :: rest => .ok (.ident x, rest)
    | .lparen :: rest =>
      pbind (expressionF f rest) fun node rest2 =>
        pbind (eat "RPAREN" rest2) fun _ rest3 => .ok (node, rest3)
    | t :: _ => .error (.unexpectedToken t)

/-- The `while` loop of `Parser.term`, left-folding `*` / `/` factors
into nested `BinaryExpression` nodes. -/
def termLoopF : Nat → Expr → List Token → PRes Expr
  | 0, _, _ => .error .fuelOut
  | f + 1, node, toks =>
    match toks with
    | [] => .error .noneCrash
    | .operator op :: rest =>
      if op = "*" || op = "/" then
        pbind (factorF f rest) fun right rest2 =>
          termLoopF f (.bin op node right) rest2
      else .ok (node, toks)
    | _ => .ok (node, toks)

/-- `Parser.term`: `Term -> Factor (('*' | '/') Factor)*`. -/
def termF : Nat → List Token → PRes Expr
  | 0, _ => .error .fuelOut
  | f + 1, toks =>
    pbind (factorF f toks) fun node rest => termLoopF f node rest

/-- The `while` loop of `Parser.expression`, left-folding `+` / `-`
terms into nested `BinaryExpression` nodes. -/
def exprLoopF : Nat → Expr → List Token → PRes Expr
  | 0, _, _ => .error .fuelOut
  | f + 1, node, toks =>
    match toks with
    | [] => .error .noneCrash
    | .operator op :: rest =>
      if op = "+" || op = "-" then
        pbind (termF f rest) fun right rest2 =>
          exprLoopF f (.bin op node right) rest2
      else .ok (node, toks)
    | _ => .ok (node, toks)

/-- `Parser.expression`: `Expression -> Term (('+' | '-') Term)*`. -/
def expressionF : Nat → List Token → PRes Expr
  | 0, _ => .error .fuelOut
  | f + 1, toks =>
    pbind (termF f toks) fun node rest => exprLoopF f node rest

/-- `Parser.print_statement`:
`PrintStatement -> 'print' '(' Expression ')' ';'`. -/
def printStatementF : Nat → List Token → PRes Stmt
  | 0, _ => .error .fuelOut
  | f + 1, toks =>
    pbind (eat "KEYWORD" toks) fun _ r1 =>
      pbind (eat "LPAREN" r1) fun _ r2 =>
        pbind (expressionF f r2) fun expr r3 =>
          pbind (eat "RPAREN" r3) fun _ r4 =>
            pbind (eat "SEMICOLON" r4) fun _ r5 => .ok (.printS expr, r5)

/-- `Parser.assignment_statement`:
`AssignmentStatement -> Identifier '=' Expression ';'`.  (`eat
IDENTIFIER` can only return an `identifier` token; the `name` field is
its payload.) -/
def assignmentStatementF : Nat → List Token → PRes Stmt
  | 0, _ => .error .fuelOut
  | f + 1, toks =>
    pbind (eat "IDENTIFIER" toks) fun idTok r1 =>
      pbind (eat "ASSIGN" r1) fun _ r2 =>
        pbind (expressionF f r2) fun expr r3 =>
          pbind (eat "SEMICOLON" r3) fun _ r4 =>
            .ok (.assignS (match idTok with
              | .identifier x => x
              | _ => "") expr, r4)

/-- The `while` loop of `Parser.block`, collecting statements until the
current token is `RBRACE` (crashing, like the Python subscript of
`None`, if the token list is exhausted). -/
def blockBodyF : Nat → List Token → PRes StmtList
  | 0, _ => .error .fuelOut
  | f + 1, toks =>
    match toks with
    | [] => .error .noneCrash
    | .rbrace :: _ => .ok (.nil, toks)
    | _ =>
      pbind (statementF f toks) fun s r1 =>
        pbind (blockBodyF f r1) fun ss r2 => .ok (.cons s ss, r2)

/-- `Parser.block`: `Block -> '{' Statement* '}'`. -/
def blockF : Nat → List Token → PRes Stmt
  | 0, _ => .error .fuelOut
  | f + 1, toks =>
    pbind (eat "LBRACE" toks) fun _ r1 =>
      pbind (blockBodyF f r1) fun ss r2 =>
        pbind (eat "RBRACE" r2) fun _ r3 => .ok (.blockS ss, r3)

/-- `Parser.statement`: dispatch on the current token alone — the
`print` keyword, an `IDENTIFIER`, or `{`; anything else raises
`SyntaxError(f"Unexpected token: {self.current_token}")`. -/
def statementF : Nat → List Token → PRes Stmt
  | 0, _ => .error .fuelOut
  | f + 1, toks =>
    match toks with
    | [] => .error .noneCrash
    | .keyword k :: _ =>
      if k = "print" then printStatementF f toks
      else .error (.unexpectedToken (.keyword k))
    | .identifier _ :: _ => assignmentStatementF f toks
    | .lbrace :: _ => blockF f toks
    | t :: _ => .error (.unexpectedToken t)

/-- The `while` loop of `Parser.program`, collecting statements until
the current token is `EOF`. -/
def programLoopF : Nat → List Token → PRes StmtList
  | 0, _ => .error .fuelOut
  | f + 1, toks =>
    match toks with
    | [] => .error .noneCrash
    | .eof :: _ => .ok (.nil, toks)
    | _ =>
      pbind (statementF f toks) fun s r1 =>
        pbind (programLoopF f r1) fun ss r2 => .ok (.cons s ss, r2)

end

/-- Fuel that always suffices for `programLoopF` (each same-length chain
of parser calls is at most 8 deep before a token is consumed; see
`parserFuel_spec` below). -/
def parserFuel (toks : List Token) : Nat := 8 * toks.length + 8

/-- `Parser.parse`: run `program()` and wrap the collected statements
into the `Program` root node. -/
def parse (toks : List Token) : Except SynError Program :=
  match programLoopF (parserFuel toks) toks with
  | .error e => .error e
  | .ok (ss, _) => .ok ⟨ss⟩

/-- Python `str(value)` of a literal payload, as used by
`visit_Literal` and by f-string interpolation.  `str` of a Python float
is abstracted by the rational's textual form (no claim depends on it). -/
def pyStr : LitVal → String
  | .intV n => toString n
  | .floatV q => toString q
  | .strV s => s

/-- `CodeGenerator.visit` restricted to expression nodes
(`visit_BinaryExpression`, `visit_Literal`, `visit_Identifier`); these
visitors return a string and do not touch the generator state. -/
def genExpr : Expr → String
  | .bin op l r => "(" ++ genExpr l ++ " " ++ op ++ " " ++ genExpr r ++ ")"
  | .lit v dt => if dt = "string" then "\"" ++ pyStr v ++ "\"" else pyStr v
  | .ident x => x

/-- The mutable state of `CodeGenerator`: the `indent_level` counter and
the accumulated `output` lines. -/
structure GenState where
  ind : Nat
  out : List String
deriving DecidableEq, Repr

/-- `CodeGenerator.indent`: `'    ' * self.indent_level`, i.e. `4 * n`
space characters. -/
def indentStr (n : Nat) : String := String.mk (List.replicate (4 * n) ' ')

mutual

/-- `CodeGenerator.visit` restricted to statement nodes
(`visit_PrintStatement`, `visit_AssignmentStatement`, `visit_Block`),
threading the generator state. -/
def visitStmt : GenState → Stmt → GenState
  | st, .printS e =>
    { st with out := st.out ++ [indentStr st.ind ++ "print(" ++ genExpr e ++ ")"] }
  | st, .assignS x e =>
    { st with out := st.out ++ [indentStr st.ind ++ x ++ " = " ++ genExpr e] }
  | st, .blockS body =>
    let st1 := visitStmts { st with ind := st.ind + 1 } body
    { st1 with ind := st1.ind - 1 }

/-- The `for statement in node['body']` loops of `visit_Program` and
`visit_Block`. -/
def visitStmts : GenState → StmtList → GenState
  | st, .nil => st
  | st, .cons s ss => visitStmts (visitStmt st s) ss

end

/-- `CodeGenerator.visit_Program` followed by `generate`'s
`'\n'.join(self.output)`: header comment, blank line, then the visited
statements, starting from indentation level 0. -/
def generate (p : Program) : String :=
  String.intercalate "\n"
    (visitStmts ⟨0, ["# Generated by SimpleCompiler", ""]⟩ p.body).out

/-- A failure of the whole pipeline: either stage's exception. -/
inductive CompErr where
  | lexE (e : LexErr)
  | synE (e : SynError)
deriving DecidableEq, Repr

/-- `Compiler.compile`: tokenize, parse, generate (the optional output
file of the Python signature is external I/O, outside the core). -/
def compile (src : String) : Except CompErr String :=
  match tokenize src with
  | .error e => .error (.lexE e)
  | .ok toks =>
    match parse toks with
    | .error e => .error (.synE e)
    | .ok ast => .ok (generate ast)

/-- Modelled from the spec: values of the dynamically-typed target
runtime that executes the generated text (§1, §6 — the runtime itself is
an excluded external collaborator, so it is modelled, not translated).
Integers are unbounded, floats are read exactly as rationals, strings
are verbatim. -/
inductive PyVal where
  | vInt (n : ℤ)
  | vFloat (q : ℚ)
  | vStr (s : String)
deriving DecidableEq, Repr

/-- Modelled from the spec: the target runtime's binary operators on the
value combinations the generated programs of this development exercise
(`+ - *` on integers, `+` on strings); every other combination is a
runtime error (`none`). -/
def applyOp : String → PyVal → PyVal → Option PyVal
  | "+", .vInt a, .vInt b => some (.vInt (a + b))
  | "-", .vInt a, .vInt b => some (.vInt (a - b))
  | "*", .vInt a, .vInt b => some (.vInt (a * b))
  | "+", .vStr a, .vStr b => some (.vStr (a ++ b))
  | _, _, _ => none

/-- Modelled from the spec: expression evaluation by the target runtime
over a variable environment (later assignments shadow earlier ones). -/
def evalExpr (env : List (String × PyVal)) : Expr → Option PyVal
  | .lit (.intV n) _ => some (.vInt n)
  | .lit (.floatV q) _ => some (.vFloat q)
  | .lit (.strV s) _ => some (.vStr s)
  | .ident x => (env.find? (fun p => p.1 = x)).map (fun p => p.2)
  | .bin op l r =>
    match evalExpr env l, evalExpr env r with
    | some a, some b => applyOp op a b
    | _, _ => none

/-- Modelled from the spec: how the target runtime's `print` renders a
value on its own output line. -/
def fmtVal : PyVal → String
  | .vInt n => toString n
  | .vFloat q => toString q
  | .vStr s => s

mutual

/-- Modelled from the spec: execution of one generated statement by the
target runtime, threading the environment and the printed lines. -/
def execStmt : List (String × PyVal) × List String → Stmt →
    Option (List (String × PyVal) × List String)
  | (env, out), .printS e => (evalExpr env e).map (fun v => (env, out ++ [fmtVal v]))
  | (env, out), .assignS x e => (evalExpr env e).map (fun v => ((x, v) :: env, out))
  | st, .blockS body => execStmts st body

/-- Modelled from the spec: sequential execution of a statement list. -/
def execStmts : List (String × PyVal) × List String → StmtList →
    Option (List (String × PyVal) × List String)
  | st, .nil => some st
  | st, .cons s ss =>
    match execStmt st s with
    | some st2 => execStmts st2 ss
    | none => none

end

/-- Modelled from the spec: the printed lines produced when the target
runtime executes the compiled program. -/
def run (p : Program) : Option (List String) :=
  (execStmts ([], []) p.body).map (fun st => st.2)

/-- The end-to-end example source of the spec. -/
def exampleSrc : String :=
  "x = 10; y = 20; z = x + y; print(z); print(\"Hello, world!\");"

/-- The text the spec requires for it. -/
def exampleOut : String :=
  "# Generated by SimpleCompiler\n\nx = 10\ny = 20\nz = (x + y)\nprint(z)\nprint(\"Hello, world!\")"

mutual

/-- The lines a statement contributes to the output at indentation
level `n` (characterization of `visitStmt`, proved against it in
`visitStmt_emit`). -/
def emitStmt : Nat → Stmt → List String
  | n, .printS e => [indentStr n ++ "print(" ++ genExpr e ++ ")"]
  | n, .assignS x e => [indentStr n ++ x ++ " = " ++ genExpr e]
  | n, .blockS body => emitList (n + 1) body

/-- The lines a statement sequence contributes at indentation level
`n`. -/
def emitList : Nat → StmtList → List String
  | _, .nil => []
  | n, .cons s ss => emitStmt n s ++ emitList n ss

end

/-- The three possible outcomes of `tokenize` (claim C2 as amended):
a token list ending in exactly one `EOF`; the lexer's own
unrecognized-character `ValueError`; or the `ValueError` that Python's
`float` raises on a numeric span with two or more decimal points. -/
def lexThreeOutcomes (r : Except LexErr (List Token)) : Prop :=
  (∃ ts, r = .ok (ts ++ [Token.eof]) ∧ Token.eof ∉ ts) ∨
  (∃ c, r = .error (.unrecognized c) ∧ recognizedChar c = false) ∨
  (∃ span, r = .error (.badFloat span) ∧ 2 ≤ span.data.count '.')

/-- A token list that ends with the `EOF` token (the shape `tokenize`
always produces). -/
def eofTerm (toks : List Token) : Prop := ∃ pre, toks = pre ++ [Token.eof]

mutual

/-- Derivations of the spec grammar rule
`Factor -> INTEGER | FLOAT | STRING | IDENTIFIER | '(' Expression ')'`:
`FactorD ts e` holds when the token span `ts` is a factor whose AST is
`e`.  This relation (and the three below) is written from the spec's
EBNF and associativity words, independently of the parser code. -/
inductive FactorD : List Token → Expr → Prop where
  | int (n : Nat) : FactorD [.integer n] (.lit (.intV n) "int")
  | flt (q : ℚ) : FactorD [.float q] (.lit (.floatV q) "float")
  | strl (s : String) : FactorD [.str s] (.lit (.strV s) "string")
  | idn (x : String) : FactorD [.identifier x] (.ident x)
  | paren {ts : List Token} {e : Expr} :
      ExprD ts e → FactorD (.lparen :: (ts ++ [.rparen])) e

/-- Derivations of `(('*' | '/') Factor)*` folded LEFT-associatively
onto an accumulated operand: `TermRestD acc ts e` holds when consuming
the operator/factor pairs of `ts` left-folds `acc` into `e`. -/
inductive TermRestD : Expr → List Token → Expr → Prop where
  | nil (acc : Expr) : TermRestD acc [] acc
  | cons {op : String} {ts ts2 : List Token} {fct e : Expr} (acc : Expr) :
      (op = "*" ∨ op = "/") → FactorD ts fct →
      TermRestD (.bin op acc fct) ts2 e →
      TermRestD acc (.operator op :: (ts ++ ts2)) e

/-- Derivations of `Term -> Factor (('*' | '/') Factor)*`. -/
inductive TermD : List Token → Expr → Prop where
  | mk {ts1 ts2 : List Token} {fct e : Expr} :
      FactorD ts1 fct → TermRestD fct ts2 e → TermD (ts1 ++ ts2) e

/-- Derivations of `(('+' | '-') Term)*` folded LEFT-associatively onto
an accumulated operand. -/
inductive ExprRestD : Expr → List Token → Expr → Prop where
  | nil (acc : Expr) : ExprRestD acc [] acc
  | cons {op : String} {ts ts2 : List Token} {t e : Expr} (acc : Expr) :
      (op = "+" ∨ op = "-") → TermD ts t →
      ExprRestD (.bin op acc t) ts2 e →
      ExprRestD acc (.operator op :: (ts ++ ts2)) e

/-- Derivations of `Expression -> Term (('+' | '-') Term)*`; `*` and
`/` bind tighter than `+` and `-` because their chains are consumed
whole inside each `Term`. -/
inductive ExprD : List Token → Expr → Prop where
  | mk {ts1 ts2 : List Token} {t e : Expr} :
      TermD ts1 t → ExprRestD t ts2 e → ExprD (ts1 ++ ts2) e

end

/-! ## Theorems -/

/-! Branch equations of the `tokenizeF` loop. -/
theorem tokenizeF_ws (f : Nat) (c : Char) (cs : List Char)
    (h : c.isWhitespace = true) :
    tokenizeF (f + 1) (c :: cs) = tokenizeF f cs := by
  simp [tokenizeF, h]

theorem tokenizeF_ident (f : Nat) (c : Char) (cs : List Char)
    (h1 : c.isWhitespace = false) (h2 : (c.isAlpha || c = '_') = true) :
    tokenizeF (f + 1) (c :: cs) =
      consTok (get_identifier (c :: cs)).1
        (tokenizeF f (get_identifier (c :: cs)).2) := by
  simp only [tokenizeF]
  rw [if_neg (by simp [h1]), if_pos (by simp [h2])]

theorem tokenizeF_digit (f : Nat) (c : Char) (cs : List Char)
    (h1 : c.isWhitespace = false) (h2 : (c.isAlpha || c = '_') = false)
    (h3 : c.isDigit = true) :
    tokenizeF (f + 1) (c :: cs) =
      match get_number (c :: cs) with
      | .error e => .error e
      | .ok (tok, rest) => consTok tok (tokenizeF f rest) := by
  simp only [tokenizeF]
  rw [if_neg (by simp [h1]), if_neg (by simp [h2]), if_pos (by simp [h3])]

theorem tokenizeF_quote (f : Nat) (cs : List Char) :
    tokenizeF (f + 1) ('"' :: cs) =
      consTok (get_string cs).1 (tokenizeF f (get_string cs).2) := rfl

theorem tokenizeF_plus (f : Nat) (cs : List Char) :
    tokenizeF (f + 1) ('+' :: cs) =
      consTok (.operator "+") (tokenizeF f cs) := rfl

theorem tokenizeF_minus (f : Nat) (cs : List Char) :
    tokenizeF (f + 1) ('-' :: cs) =
      consTok (.operator "-") (tokenizeF f cs) := rfl

theorem tokenizeF_star (f : Nat) (cs : List Char) :
    tokenizeF (f + 1) ('*' :: cs) =
      consTok (.operator "*") (tokenizeF f cs) := rfl

theorem tokenizeF_slash (f : Nat) (cs : List Char) :
    tokenizeF (f + 1) ('/' :: cs) =
      consTok (.operator "/") (tokenizeF f cs) := rfl

theorem tokenizeF_eqsign (f : Nat) (cs : List Char) :
    tokenizeF (f + 1) ('=' :: cs) =
      if cs.head? = some '=' then
        consTok (.operator "==") (tokenizeF f cs.tail)
      else
        consTok .assign (tokenizeF f cs) := rfl

theorem tokenizeF_semi (f : Nat) (cs : List Char) :
    tokenizeF (f + 1) (';' :: cs) =
      consTok .semicolon (tokenizeF f cs) := rfl

theorem tokenizeF_lpar (f : Nat) (cs : List Char) :
    tokenizeF (f + 1) ('(' :: cs) =
      consTok .lparen (tokenizeF f cs) := rfl

theorem tokenizeF_rpar (f : Nat) (cs : List Char) :
    tokenizeF (f + 1) (')' :: cs) =
      consTok .rparen (tokenizeF f cs) := rfl

theorem tokenizeF_lbr (f : Nat) (cs : List Char) :
    tokenizeF (f + 1) ('{' :: cs) =
      consTok .lbrace (tokenizeF f cs) := rfl

theorem tokenizeF_rbr (f : Nat) (cs : List Char) :
    tokenizeF (f + 1) ('}' :: cs) =
      consTok .rbrace (tokenizeF f cs) := rfl

/-- When the current character matches no recognized category, the
loop's final line raises the unrecognized-character error at once. -/
theorem tokenizeF_unrecognized (f : Nat) (c : Char) (cs : List Char)
    (h : recognizedChar c = false) :
    tokenizeF (f + 1) (c :: cs) = .error (.unrecognized c) := by
  simp only [recognizedChar, Bool.or_eq_false_iff, decide_eq_false_iff_not] at h
  obtain ⟨⟨⟨⟨⟨⟨⟨⟨⟨⟨⟨⟨⟨⟨hws, ha⟩, hu⟩, hd⟩, hq⟩, hp⟩, hm⟩, hs⟩, hdv⟩, he⟩, hsc⟩,
    hlp⟩, hrp⟩, hlb⟩, hrb⟩ := h
  simp [tokenizeF, hws, ha, hu, hd, hq, hp, hm, hs, hdv, he, hsc, hlp, hrp,
    hlb, hrb]

example : Gemstone.compile "x = 1; print(x);" =
    .ok "# Generated by SimpleCompiler\n\nx = 1\nprint(x)" := by rfl

example : Gemstone.compile "x = 10" =
    .error (.synE (.expected "SEMICOLON" "EOF")) := by rfl

example : Gemstone.compile "if (x) { print(x); }" =
    .error (.synE (.unexpectedToken (.keyword "if"))) := by rfl

example : Gemstone.compile "{ x = 1; { y = 2; z = 3; } }" =
    .ok "# Generated by SimpleCompiler\n\n    x = 1\n        y = 2\n        z = 3" := by rfl

example : Gemstone.tokenize "x = 10;" =
    .ok [.identifier "x", .assign, .integer 10, .semicolon, .eof] := by rfl

example : Gemstone.tokenize "x = 10 @ 5;" = .error (.unrecognized '@') := by rfl

example : Gemstone.tokenize "1.2.3" = .error (.badFloat "1.2.3") := by rfl

example : Gemstone.tokenize "3.5;" =
    .ok [.float (mkRat 7 2), .semicolon, .eof] := by rfl

/-- C1: `compile` on the end-to-end example source succeeds and returns
exactly the header line `# Generated by SimpleCompiler`, one blank line,
and the five unindented statement lines `x = 10`, `y = 20`,
`z = (x + y)`, `print(z)`, `print("Hello, world!")` joined by newlines;
executing the compiled program (target runtime modelled from the spec)
prints `30` then `Hello, world!`. -/
theorem c1_end_to_end_example :
    compile exampleSrc = .ok exampleOut ∧
    ((tokenize exampleSrc).toOption.bind fun toks =>
      (parse toks).toOption.bind fun p => run p) =
        some ["30", "Hello, world!"] := by
  constructor
  · rfl
  · rfl

/-- C4: whenever the current character matches none of the lexer's
recognized categories, tokenization fails immediately with the
`ValueError` whose message is exactly `Unrecognized character: <char>`,
and no partial token list is returned; in particular `x = 10 @ 5;`
fails naming `@`. -/
theorem c4_unrecognized_character :
    (∀ (c : Char) (cs : List Char) (f : Nat), recognizedChar c = false →
       tokenizeF (f + 1) (c :: cs) = .error (.unrecognized c)) ∧
    (∀ c : Char,
       LexErr.message (.unrecognized c) = "Unrecognized character: " ++ c.toString) ∧
    tokenize "x = 10 @ 5;" = .error (.unrecognized '@') ∧
    LexErr.message (.unrecognized '@') = "Unrecognized character: @" :=
  ⟨fun c cs f h => tokenizeF_unrecognized f c cs h, fun _ => rfl, rfl, rfl⟩

/-- Witness for `c4_unrecognized_character`: its hypothesis is
satisfiable, e.g. at the character `@`. -/
theorem c4_unrecognized_character_witness :
    recognizedChar '@' = false ∧
    tokenizeF 1 ['@'] = .error (.unrecognized '@') :=
  ⟨by decide, c4_unrecognized_character.1 '@' [] 0 (by decide)⟩

/-- C5: consuming an expected token kind that does not match the current
token fails with `SyntaxError("Expected <expected>, got <actual>")`; in
particular `x = 10` (no trailing `;`) fails expecting `SEMICOLON` but
finding `EOF`, and `compile` returns that error, no partial AST. -/
theorem c5_expected_token_mismatch :
    (∀ (k : String) (t : Token) (rest : List Token), t.kind ≠ k →
       eat k (t :: rest) = .error (.expected k t.kind)) ∧
    (∀ e g : String,
       SynError.message (.expected e g) = "Expected " ++ e ++ ", got " ++ g) ∧
    compile "x = 10" = .error (.synE (.expected "SEMICOLON" "EOF")) ∧
    SynError.message (.expected "SEMICOLON" "EOF") =
      "Expected SEMICOLON, got EOF" := by
  refine ⟨?_, fun e g => rfl, rfl, rfl⟩
  intro k t rest h
  simp [eat, h]

/-- Witness for `c5_expected_token_mismatch`: its hypothesis is
satisfiable, e.g. eating a `SEMICOLON` when the current token is the
`EOF` token. -/
theorem c5_expected_token_mismatch_witness :
    Token.eof.kind ≠ "SEMICOLON" ∧
    eat "SEMICOLON" [Token.eof] = .error (.expected "SEMICOLON" "EOF") :=
  ⟨by decide, c5_expected_token_mismatch.1 "SEMICOLON" .eof [] (by decide)⟩

/-- C6: statement dispatch is decided by the current token alone — the
`print` keyword selects the print statement, an `IDENTIFIER` selects the
assignment statement, `{` selects the block, and every other leading
token fails with `SyntaxError("Unexpected token: <token>")`; in
particular `if (x) { print(x); }` fails at the `if` keyword token. -/
theorem c6_statement_dispatch :
    (∀ (f : Nat) (toks : List Token),
       statementF (f + 1) (.keyword "print" :: toks) =
         printStatementF f (.keyword "print" :: toks)) ∧
    (∀ (f : Nat) (x : String) (toks : List Token),
       statementF (f + 1) (.identifier x :: toks) =
         assignmentStatementF f (.identifier x :: toks)) ∧
    (∀ (f : Nat) (toks : List Token),
       statementF (f + 1) (.lbrace :: toks) = blockF f (.lbrace :: toks)) ∧
    (∀ (f : Nat) (t : Token) (toks : List Token),
       (∀ s, t = .keyword s → s ≠ "print") → t.kind ≠ "IDENTIFIER" →
       t.kind ≠ "LBRACE" →
       statementF (f + 1) (t :: toks) = .error (.unexpectedToken t)) ∧
    compile "if (x) { print(x); }" =
      .error (.synE (.unexpectedToken (.keyword "if"))) ∧
    SynError.message (.unexpectedToken (.keyword "if")) =
      "Unexpected token: (" ++ sq ++ "KEYWORD" ++ sq ++ ", " ++ sq ++ "if" ++
        sq ++ ")" := by
  refine ⟨fun f toks => by simp [statementF], fun f x toks => rfl,
    fun f toks => rfl, ?_, rfl, rfl⟩
  intro f t toks hkw hid hlb
  cases t <;> simp_all [statementF, Token.kind]

/-- Witness for `c6_statement_dispatch`: its hypotheses are satisfiable,
e.g. at the leading token `('KEYWORD', 'if')`. -/
theorem c6_statement_dispatch_witness :
    statementF 1 [Token.keyword "if"] =
      .error (.unexpectedToken (.keyword "if")) :=
  c6_statement_dispatch.2.2.2.1 0 (.keyword "if") []
    (by intro s h; cases h; decide) (by decide) (by decide)

section SpanLemmas

variable {α : Type} (p : α → Bool)

/-- A `takeWhile` span stops exactly at the first failing element. -/
theorem takeWhile_append_stop (l : List α) (c : α) (l' : List α)
    (h : ∀ x ∈ l, p x = true) (hc : p c = false) :
    (l ++ c :: l').takeWhile p = l := by
  induction l with
  | nil => simp [List.takeWhile_cons, hc]
  | cons a as ih =>
    simp only [List.cons_append, List.takeWhile_cons, h a (by simp)]
    simp [ih (fun x hx => h x (by simp [hx]))]

/-- A `dropWhile` span resumes exactly at the first failing element. -/
theorem dropWhile_append_stop (l : List α) (c : α) (l' : List α)
    (h : ∀ x ∈ l, p x = true) (hc : p c = false) :
    (l ++ c :: l').dropWhile p = c :: l' := by
  induction l with
  | nil => simp [List.dropWhile_cons, hc]
  | cons a as ih =>
    simp only [List.cons_append, List.dropWhile_cons, h a (by simp)]
    simp [ih (fun x hx => h x (by simp [hx]))]

/-- `takeWhile` keeps a list all of whose elements satisfy the test. -/
theorem takeWhile_all (l : List α) (h : ∀ x ∈ l, p x = true) :
    l.takeWhile p = l := by
  induction l with
  | nil => rfl
  | cons a as ih =>
    simp only [List.takeWhile_cons, h a (by simp)]
    simp [ih (fun x hx => h x (by simp [hx]))]

/-- `dropWhile` empties a list all of whose elements satisfy the test. -/
theorem dropWhile_all (l : List α) (h : ∀ x ∈ l, p x = true) :
    l.dropWhile p = [] := by
  induction l with
  | nil => rfl
  | cons a as ih =>
    simp only [List.dropWhile_cons, h a (by simp)]
    exact ih (fun x hx => h x (by simp [hx]))

end SpanLemmas

/-- All characters of a quote-free list pass `get_string`'s scan. -/
theorem quote_free_all (content : List Char) (hc : '"' ∉ content) :
    ∀ x ∈ content, (decide (x ≠ '"')) = true := by
  intro x hx
  simp only [decide_eq_true_eq]
  intro h; exact hc (h ▸ hx)

/-- `get_string` on a properly terminated literal: the value is the
content verbatim, the closing quote is consumed and excluded. -/
theorem get_string_closed (content rest : List Char) (hc : '"' ∉ content) :
    get_string (content ++ '"' :: rest) =
      (Token.str (String.mk content), rest) := by
  simp only [get_string]
  rw [takeWhile_append_stop _ content '"' rest (quote_free_all content hc)
      (by decide),
    dropWhile_append_stop _ content '"' rest (quote_free_all content hc)
      (by decide)]
  simp

/-- `get_string` on an unterminated literal: the value is everything up
to the end of input. -/
theorem get_string_unterminated (content : List Char) (hc : '"' ∉ content) :
    get_string content = (Token.str (String.mk content), []) := by
  simp only [get_string]
  rw [takeWhile_all _ content (quote_free_all content hc),
    dropWhile_all _ content (quote_free_all content hc)]
  simp

/-- C7: a `"` starts a string literal consumed verbatim up to the next
`"` (exclusive, the closing quote consumed but excluded) or to the end
of input, with no escape processing; `visit_Literal` re-wraps the value
in double quotes; the round-trip example emits `"Hello, world!"`
unchanged. -/
theorem c7_string_literal_verbatim :
    (∀ (f : Nat) (content rest : List Char), '"' ∉ content →
       tokenizeF (f + 1) ('"' :: (content ++ '"' :: rest)) =
         consTok (Token.str (String.mk content)) (tokenizeF f rest)) ∧
    (∀ (f : Nat) (content : List Char), '"' ∉ content →
       tokenizeF (f + 2) ('"' :: content) =
         .ok [Token.str (String.mk content), .eof]) ∧
    (∀ s : String, genExpr (.lit (.strV s) "string") = "\"" ++ s ++ "\"") ∧
    compile "print(\"Hello, world!\");" =
      .ok "# Generated by SimpleCompiler\n\nprint(\"Hello, world!\")" := by
  refine ⟨?_, ?_, fun s => rfl, rfl⟩
  · intro f content rest hc
    rw [tokenizeF_quote, get_string_closed content rest hc]
  · intro f content hc
    rw [show f + 2 = (f + 1) + 1 by ring, tokenizeF_quote,
      get_string_unterminated content hc]
    rfl

/-- Witness for `c7_string_literal_verbatim`: its hypotheses are
satisfiable, e.g. for the literal body `hi` followed by `;`. -/
theorem c7_string_literal_verbatim_witness :
    ('"' ∉ ['h', 'i']) ∧
    tokenizeF 3 ('"' :: (['h', 'i'] ++ '"' :: [';'])) =
      consTok (Token.str (String.mk ['h', 'i'])) (tokenizeF 2 [';']) :=
  ⟨by decide, c7_string_literal_verbatim.1 2 ['h', 'i'] [';'] (by decide)⟩

mutual

/-- `visitStmt` restores the indentation level and only appends the
statement's own lines to the output. -/
theorem visitStmt_emit : ∀ (s : Stmt) (st : GenState),
    (visitStmt st s).ind = st.ind ∧
    (visitStmt st s).out = st.out ++ emitStmt st.ind s
  | .printS e, st => by simp [visitStmt, emitStmt]
  | .assignS x e, st => by simp [visitStmt, emitStmt]
  | .blockS body, st => by
    have h := visitStmts_emit body { st with ind := st.ind + 1 }
    simp [visitStmt, emitStmt, h.1, h.2]

/-- `visitStmts` keeps the indentation level and only appends the
sequence's lines to the output. -/
theorem visitStmts_emit : ∀ (ss : StmtList) (st : GenState),
    (visitStmts st ss).ind = st.ind ∧
    (visitStmts st ss).out = st.out ++ emitList st.ind ss
  | .nil, st => by simp [visitStmts, emitList]
  | .cons s ss, st => by
    have h1 := visitStmt_emit s st
    have h2 := visitStmts_emit ss (visitStmt st s)
    simp [visitStmts, emitList, h1.1, h1.2, h2.1, h2.2]

end

/-- One more indentation level is one more leading 4-space unit. -/
theorem indentStr_succ (n : Nat) : indentStr (n + 1) = "    " ++ indentStr n := by
  show String.mk _ = String.mk _ ++ String.mk _
  rw [show 4 * (n + 1) = 4 + 4 * n by ring, List.replicate_add]
  rfl

/-- C8: visiting a `Block` node emits each statement of its body with
exactly one 4-space unit more indentation than the enclosing level,
emits no delimiter text of its own, and restores the indentation level
afterwards; in particular a block of two statements emits exactly the
two statements' lines, one extra unit deep. -/
theorem c8_block_indentation :
    (∀ (st : GenState) (body : StmtList),
       (visitStmt st (.blockS body)).ind = st.ind) ∧
    (∀ (st : GenState) (body : StmtList),
       (visitStmt st (.blockS body)).out =
         st.out ++ emitList (st.ind + 1) body) ∧
    (∀ (st : GenState) (s1 s2 : Stmt),
       (visitStmt st (.blockS (.cons s1 (.cons s2 .nil)))).out =
         st.out ++ emitStmt (st.ind + 1) s1 ++ emitStmt (st.ind + 1) s2) ∧
    (∀ (n : Nat) (e : Expr),
       emitStmt (n + 1) (.printS e) =
         ["    " ++ indentStr n ++ "print(" ++ genExpr e ++ ")"]) ∧
    (∀ (n : Nat) (x : String) (e : Expr),
       emitStmt (n + 1) (.assignS x e) =
         ["    " ++ indentStr n ++ x ++ " = " ++ genExpr e]) := by
  refine ⟨fun st body => (visitStmt_emit _ st).1,
    fun st body => by simp [(visitStmt_emit _ st).2, emitStmt],
    fun st s1 s2 => by simp [(visitStmt_emit _ st).2, emitStmt, emitList],
    fun n e => by simp [emitStmt, indentStr_succ],
    fun n x e => by simp [emitStmt, indentStr_succ]⟩

/-- On an all-whitespace remainder the lexer only skips and appends the
single `EOF` token. -/
theorem tokenizeF_whitespace : ∀ (cs : List Char) (f : Nat),
    cs.length < f → (∀ c ∈ cs, c.isWhitespace = true) →
    tokenizeF f cs = .ok [.eof] := by
  intro cs
  induction cs with
  | nil =>
    intro f hf _
    match f, hf with
    | g + 1, _ => rfl
  | cons c cs ih =>
    intro f hf hws
    match f, hf with
    | g + 1, hf =>
      have : tokenizeF (g + 1) (c :: cs) = tokenizeF g cs := by
        simp [tokenizeF, hws c (by simp)]
      rw [this]
      exact ih g (by simpa using Nat.lt_of_succ_lt_succ hf)
        (fun x hx => hws x (by simp [hx]))

/-- C10: compiling the empty string, or any string of only whitespace
characters, succeeds: the lexer returns just the `EOF` token, the
parser returns a `Program` with an empty body, and the output is
exactly the header line followed by one blank line. -/
theorem c10_empty_and_whitespace_source :
    compile "" = .ok "# Generated by SimpleCompiler\n" ∧
    parse [.eof] = .ok ⟨.nil⟩ ∧
    ∀ s : String, (∀ c ∈ s.data, c.isWhitespace = true) →
      tokenize s = .ok [.eof] ∧
      compile s = .ok "# Generated by SimpleCompiler\n" := by
  refine ⟨rfl, rfl, ?_⟩
  intro s hws
  have ht : tokenize s = .ok [.eof] :=
    tokenizeF_whitespace s.data (s.data.length + 1) (Nat.lt_succ_self _) hws
  refine ⟨ht, ?_⟩
  unfold compile
  rw [ht]
  rfl

/-- Witness for `c10_empty_and_whitespace_source`: its hypothesis is
satisfiable, e.g. on a source of two spaces and a newline. -/
theorem c10_empty_and_whitespace_source_witness :
    (∀ c ∈ ("  \n" : String).data, c.isWhitespace = true) ∧
    compile "  \n" = .ok "# Generated by SimpleCompiler\n" :=
  ⟨by decide, (c10_empty_and_whitespace_source.2.2 "  \n" (by decide)).2⟩

/-- Prepending a non-`EOF` token to a recursive lexer result preserves
the outcome trichotomy. -/
theorem threeOutcomes_cons (tok : Token) (htok : tok ≠ Token.eof)
    (r : Except LexErr (List Token)) (hr : lexThreeOutcomes r) :
    lexThreeOutcomes (consTok tok r) := by
  rcases hr with ⟨ts, rfl, hm⟩ | ⟨c0, rfl, hc⟩ | ⟨sp, rfl, hs⟩
  · refine .inl ⟨tok :: ts, by simp [consTok], ?_⟩
    simp only [List.mem_cons, not_or]
    exact ⟨fun h => htok h.symm, hm⟩
  · exact .inr (.inl ⟨c0, rfl, hc⟩)
  · exact .inr (.inr ⟨sp, rfl, hs⟩)

/-- `get_number` either produces an `INTEGER`/`FLOAT` token or fails
like Python's `float` on a span with at least two decimal points. -/
theorem numberToken_tri (span : List Char) :
    (∃ tok, numberToken span = .ok tok ∧ tok ≠ Token.eof) ∨
    (numberToken span = .error (.badFloat (String.mk span)) ∧
      2 ≤ span.count '.') := by
  unfold numberToken
  split_ifs with h1 h2
  · exact .inl ⟨_, rfl, by simp⟩
  · refine .inr ⟨rfl, ?_⟩
    have hm : '.' ∈ span := by simpa using h1
    have := List.count_pos_iff.mpr hm
    omega
  · exact .inl ⟨_, rfl, by simp⟩

/-- Every run of `tokenizeF` with sufficient fuel ends in one of the
three outcomes of `lexThreeOutcomes`. -/
theorem tokenizeF_outcomes : ∀ (f : Nat) (cs : List Char), cs.length < f →
    lexThreeOutcomes (tokenizeF f cs) := by
  intro f
  induction f with
  | zero => intro cs h; omega
  | succ f ih =>
    intro cs hlen
    match cs with
    | [] => exact .inl ⟨[], rfl, by simp⟩
    | c :: cs' =>
      have hlen' : cs'.length < f := by
        simpa using Nat.lt_of_succ_lt_succ hlen
      by_cases hws : c.isWhitespace = true
      · rw [tokenizeF_ws f c cs' hws]
        exact ih cs' hlen'
      · have hws' : c.isWhitespace = false := by
          cases h : c.isWhitespace
          · rfl
          · exact absurd h hws
        by_cases hid : (c.isAlpha || c = '_') = true
        · have hdrop : (get_identifier (c :: cs')).2.length < f := by
            have hic : isIdentChar c = true := by
              rcases (by simpa using hid : c.isAlpha = true ∨ c = '_') with h | h
              · simp [isIdentChar, Char.isAlphanum, h]
              · simp [isIdentChar, h]
            simp only [get_identifier]
            rw [List.dropWhile_cons, if_pos (by simp [hic])]
            exact lt_of_le_of_lt (List.dropWhile_sublist _).length_le hlen'
          rw [tokenizeF_ident f c cs' hws' hid]
          exact threeOutcomes_cons _
            (by simp [get_identifier]; split <;> simp) _ (ih _ hdrop)
        · have hid' : (c.isAlpha || c = '_') = false := by
            cases h : (c.isAlpha || c = '_')
            · rfl
            · exact absurd h hid
          by_cases hdg : c.isDigit = true
          · have hdrop : ((c :: cs').dropWhile isNumChar).length < f := by
              rw [List.dropWhile_cons, if_pos (by simp [isNumChar, hdg])]
              exact lt_of_le_of_lt (List.dropWhile_sublist _).length_le hlen'
            rw [tokenizeF_digit f c cs' hws' hid' hdg]
            rcases numberToken_tri ((c :: cs').takeWhile isNumChar) with
              ⟨tok, hnt, htok⟩ | ⟨hnt, hcnt⟩
            · have hgn : get_number (c :: cs') =
                  .ok (tok, (c :: cs').dropWhile isNumChar) := by
                simp only [get_number]
                rw [hnt]
              rw [hgn]
              exact threeOutcomes_cons tok htok _ (ih _ hdrop)
            · have hgn : get_number (c :: cs') =
                  .error (.badFloat
                    (String.mk ((c :: cs').takeWhile isNumChar))) := by
                simp only [get_number]
                rw [hnt]
              rw [hgn]
              exact .inr (.inr ⟨_, rfl, by simpa using hcnt⟩)
          · by_cases hq : c = '"'
            · subst hq
              have hdrop : (get_string cs').2.length < f := by
                have h1 : (cs'.dropWhile (fun x => x ≠ '"')).length ≤
                    cs'.length := (List.dropWhile_sublist _).length_le
                have h2 : (get_string cs').2.length ≤
                    (cs'.dropWhile (fun x => x ≠ '"')).length := by
                  simp only [get_string]
                  split
                  · simp [List.length_tail]
                  · simp
                omega
              rw [tokenizeF_quote]
              exact threeOutcomes_cons _ (by simp [get_string]) _ (ih _ hdrop)
            · by_cases hp : c = '+'
              · subst hp
                rw [tokenizeF_plus]
                exact threeOutcomes_cons _ (by simp) _ (ih cs' hlen')
              · by_cases hmn : c = '-'
                · subst hmn
                  rw [tokenizeF_minus]
                  exact threeOutcomes_cons _ (by simp) _ (ih cs' hlen')
                · by_cases hst : c = '*'
                  · subst hst
                    rw [tokenizeF_star]
                    exact threeOutcomes_cons _ (by simp) _ (ih cs' hlen')
                  · by_cases hsl : c = '/'
                    · subst hsl
                      rw [tokenizeF_slash]
                      exact threeOutcomes_cons _ (by simp) _ (ih cs' hlen')
                    · by_cases he : c = '='
                      · subst he
                        rw [tokenizeF_eqsign]
                        by_cases hh : cs'.head? = some '='
                        · rw [if_pos hh]
                          have htl : cs'.tail.length < f := by
                            have := List.length_tail cs'
                            omega
                          exact threeOutcomes_cons _ (by simp) _
                            (ih cs'.tail htl)
                        · rw [if_neg hh]
                          exact threeOutcomes_cons _ (by simp) _ (ih cs' hlen')
                      · by_cases hsc : c = ';'
                        · subst hsc
                          rw [tokenizeF_semi]
                          exact threeOutcomes_cons _ (by simp) _ (ih cs' hlen')
                        · by_cases hlp : c = '('
                          · subst hlp
                            rw [tokenizeF_lpar]
                            exact threeOutcomes_cons _ (by simp) _
                              (ih cs' hlen')
                          · by_cases hrp : c = ')'
                            · subst hrp
                              rw [tokenizeF_rpar]
                              exact threeOutcomes_cons _ (by simp) _
                                (ih cs' hlen')
                            · by_cases hlb : c = '{'
                              · subst hlb
                                rw [tokenizeF_lbr]
                                exact threeOutcomes_cons _ (by simp) _
                                  (ih cs' hlen')
                              · by_cases hrb : c = '}'
                                · subst hrb
                                  rw [tokenizeF_rbr]
                                  exact threeOutcomes_cons _ (by simp) _
                                    (ih cs' hlen')
                                · have hrec : recognizedChar c = false := by
                                    simp only [recognizedChar,
                                      Bool.or_eq_false_iff,
                                      decide_eq_false_iff_not]
                                    rw [Bool.or_eq_false_iff] at hid'
                                    have hdg' : c.isDigit = false := by
                                      cases h : c.isDigit
                                      · rfl
                                      · exact absurd h hdg
                                    exact ⟨⟨⟨⟨⟨⟨⟨⟨⟨⟨⟨⟨⟨⟨hws', hid'.1⟩,
                                      by simpa using hid'.2⟩, hdg'⟩, hq⟩, hp⟩,
                                      hmn⟩, hst⟩, hsl⟩, he⟩, hsc⟩, hlp⟩,
                                      hrp⟩, hlb⟩, hrb⟩
                                  rw [tokenizeF_unrecognized f c cs' hrec]
                                  exact .inr (.inl ⟨c, rfl, hrec⟩)

/-- A digit character is not whitespace. -/
theorem isDigit_not_whitespace (c : Char) (h : c.isDigit = true) :
    c.isWhitespace = false := by
  cases hw : c.isWhitespace
  · rfl
  · exfalso
    have hw' : ((c = ' ' ∨ c = '\t') ∨ c = '\x0d') ∨ c = '\n' := by
      simpa [Char.isWhitespace] using hw
    rcases hw' with ((rfl | rfl) | rfl) | rfl <;> simp [Char.isDigit] at h

/-- A digit character is not a letter. -/
theorem isDigit_not_alpha (c : Char) (h : c.isDigit = true) :
    c.isAlpha = false := by
  simp only [Char.isDigit, Bool.and_eq_true, decide_eq_true_eq] at h
  simp only [Char.isAlpha, Char.isUpper, Char.isLower, Bool.or_eq_false_iff,
    Bool.and_eq_false_iff, decide_eq_false_iff_not]
  simp only [ge_iff_le, UInt32.le_def, BitVec.le_def] at *
  have e1 : (UInt32.toBitVec 48).toNat = 48 := rfl
  have e2 : (UInt32.toBitVec 57).toNat = 57 := rfl
  have e3 : (UInt32.toBitVec 65).toNat = 65 := rfl
  have e4 : (UInt32.toBitVec 90).toNat = 90 := rfl
  have e5 : (UInt32.toBitVec 97).toNat = 97 := rfl
  have e6 : (UInt32.toBitVec 122).toNat = 122 := rfl
  omega

/-- A digit character is not an underscore. -/
theorem isDigit_not_underscore (c : Char) (h : c.isDigit = true) :
    ¬(c = '_') := by
  rintro rfl
  simp [Char.isDigit] at h

/-- Counterexample to C2 as stated: on the numeric span `1.2.3` the
lexer does not emit a `FLOAT` token — `float("1.2.3")` raises a
conversion `ValueError`, which is neither a successful token list nor
the unrecognized-character `LexError`. -/
theorem c2_counterexample_span_1_2_3 :
    tokenize "1.2.3" = .error (.badFloat "1.2.3") := rfl

/-- C2 (amended): `tokenize` is total and deterministic with exactly
three outcomes — a token list terminated by exactly one `EOF`, the
unrecognized-character `LexError`, or the conversion `ValueError` from
`float` on a numeric span with two or more decimal points.  A digit
starts a maximal span of digits and decimal points; the span becomes
`INTEGER` with the parsed integer value when it has no `.`, `FLOAT`
with the parsed value when it has exactly one `.`, and the conversion
error otherwise. -/
theorem c2_tokenize_outcomes :
    (∀ s : String, lexThreeOutcomes (tokenize s)) ∧
    (∀ (f : Nat) (c : Char) (ds : List Char) (r : Char) (rs : List Char),
       c.isDigit = true → (∀ x ∈ ds, isNumChar x = true) →
       isNumChar r = false →
       tokenizeF (f + 1) (c :: (ds ++ r :: rs)) =
         match numberToken (c :: ds) with
         | .error e => .error e
         | .ok tok => consTok tok (tokenizeF f (r :: rs))) ∧
    (∀ span : List Char,
       ('.' ∉ span → numberToken span = .ok (.integer (natOfDigits span))) ∧
       (span.count '.' = 1 → numberToken span = .ok (.float (ratOfSpan span))) ∧
       (2 ≤ span.count '.' →
         numberToken span = .error (.badFloat (String.mk span)))) := by
  refine ⟨?_, ?_, ?_⟩
  · intro s
    exact tokenizeF_outcomes (s.data.length + 1) s.data (Nat.lt_succ_self _)
  · intro f c ds r rs hdg hds hr
    have hall : ∀ x ∈ c :: ds, isNumChar x = true := by
      intro x hx
      rcases List.mem_cons.mp hx with rfl | hx
      · simp [isNumChar, hdg]
      · exact hds x hx
    have hspan : (c :: (ds ++ r :: rs)).takeWhile isNumChar = c :: ds := by
      have := takeWhile_append_stop isNumChar (c :: ds) r rs hall hr
      simpa using this
    have hrest : (c :: (ds ++ r :: rs)).dropWhile isNumChar = r :: rs := by
      have := dropWhile_append_stop isNumChar (c :: ds) r rs hall hr
      simpa using this
    rw [tokenizeF_digit f c (ds ++ r :: rs)
      (isDigit_not_whitespace c hdg)
      (by simp [isDigit_not_alpha c hdg, isDigit_not_underscore c hdg]) hdg]
    simp only [get_number, hspan, hrest]
    cases hnb : numberToken (c :: ds) <;> simp [hnb]
  · intro span
    refine ⟨?_, ?_, ?_⟩
    · intro h
      unfold numberToken
      rw [if_neg (by simpa using h)]
    · intro h
      have hm : '.' ∈ span := List.count_pos_iff.mp (by omega)
      unfold numberToken
      rw [if_pos (by simpa using hm), if_pos h]
    · intro h
      have hm : '.' ∈ span := List.count_pos_iff.mp (by omega)
      unfold numberToken
      rw [if_pos (by simpa using hm), if_neg (by omega)]

/-- Witness for `c2_tokenize_outcomes`: its hypotheses are satisfiable,
e.g. on the maximal span `1.2` followed by `;`. -/
theorem c2_tokenize_outcomes_witness :
    ('1'.isDigit = true) ∧ (∀ x ∈ ['.', '2'], isNumChar x = true) ∧
    (isNumChar ';' = false) ∧
    tokenizeF 5 ('1' :: (['.', '2'] ++ ';' :: [])) =
      match numberToken ('1' :: ['.', '2']) with
      | .error e => .error e
      | .ok tok => consTok tok (tokenizeF 4 (';' :: [])) :=
  ⟨by decide, by decide, by decide,
    c2_tokenize_outcomes.2.1 4 '1' ['.', '2'] ';' [] (by decide) (by decide)
      (by decide)⟩

/-! Inversion lemmas for the parser combinators. -/
theorem pbind_eq_ok {α β : Type} {r : PRes α} {g : α → List Token → PRes β}
    {b : β} {rest : List Token} :
    pbind r g = .ok (b, rest) ↔
      ∃ a m, r = .ok (a, m) ∧ g a m = .ok (b, rest) := by
  cases r with
  | error e => simp [pbind]
  | ok p =>
    obtain ⟨a, m⟩ := p
    constructor
    · intro h
      exact ⟨a, m, rfl, h⟩
    · rintro ⟨a2, m2, heq, hg⟩
      injection heq with heq
      injection heq with h1 h2
      subst h1; subst h2
      exact hg

theorem pbind_eq_error {α β : Type} {r : PRes α} {g : α → List Token → PRes β}
    {e : SynError} :
    pbind r g = .error e ↔
      r = .error e ∨ ∃ a m, r = .ok (a, m) ∧ g a m = .error e := by
  cases r with
  | error e2 =>
    simp [pbind]
  | ok p =>
    obtain ⟨a, m⟩ := p
    constructor
    · intro h
      exact .inr ⟨a, m, rfl, h⟩
    · rintro (h | ⟨a2, m2, heq, hg⟩)
      · exact absurd h (by simp)
      · injection heq with heq
        injection heq with h1 h2
        subst h1; subst h2
        exact hg

theorem eat_eq_ok {k : String} {toks : List Token} {t : Token}
    {rest : List Token} :
    eat k toks = .ok (t, rest) ↔ toks = t :: rest ∧ t.kind = k := by
  cases toks with
  | nil => simp [eat]
  | cons t0 r0 =>
    by_cases hk : t0.kind = k
    · rw [eat, if_pos hk]
      constructor
      · intro h
        injection h with h
        injection h with h1 h2
        subst h1; subst h2
        exact ⟨rfl, hk⟩
      · rintro ⟨heq, hkt⟩
        injection heq with h1 h2
        subst h1; subst h2
        rfl
    · rw [eat, if_neg hk]
      constructor
      · intro h
        exact absurd h (by simp)
      · rintro ⟨heq, hkt⟩
        injection heq with h1 h2
        subst h1
        exact absurd hkt hk

theorem eat_eq_error {k : String} {t : Token} {r : List Token} {e : SynError} :
    eat k (t :: r) = .error e → e = .expected k t.kind := by
  intro h
  by_cases hk : t.kind = k
  · rw [eat, if_pos hk] at h
    exact absurd h (by simp)
  · rw [eat, if_neg hk] at h
    injection h with h
    exact h.symm

/-- The only token of kind `EOF` is the `EOF` token. -/
theorem kind_eof {t : Token} (h : t.kind = "EOF") : t = .eof := by
  cases t <;> first
    | rfl
    | exact absurd h (by simp [Token.kind])

theorem eofTerm_ne_nil {toks : List Token} (h : eofTerm toks) : toks ≠ [] := by
  obtain ⟨pre, rfl⟩ := h
  simp

/-- Consuming one non-`EOF` token preserves `eofTerm`. -/
theorem eofTerm_tail {t : Token} {rest : List Token} (ht : t ≠ Token.eof)
    (h : eofTerm (t :: rest)) : eofTerm rest := by
  obtain ⟨pre, hpre⟩ := h
  cases pre with
  | nil =>
    injection hpre with h1 h2
    exact absurd h1 ht
  | cons p pre2 =>
    injection hpre with h1 h2
    exact ⟨pre2, h2⟩

/-- A successful `eat` of a kind other than `EOF` preserves `eofTerm`. -/
theorem eat_eofTerm {k : String} {toks : List Token} {t : Token}
    {rest : List Token} (hk : k ≠ "EOF")
    (h : eat k toks = .ok (t, rest)) (he : eofTerm toks) : eofTerm rest := by
  obtain ⟨heq, hkind⟩ := eat_eq_ok.mp h
  subst heq
  refine eofTerm_tail ?_ he
  intro hteof
  subst hteof
  exact hk (hkind ▸ rfl)

/-- Every parser function returns a suffix of its input tokens, and the
non-loop functions consume at least one token; a successful block-body
loop stops exactly at an `RBRACE`. -/
theorem parser_consumes : ∀ f : Nat,
    (∀ toks x rest, factorF f toks = .ok (x, rest) →
       rest <:+ toks ∧ rest.length < toks.length) ∧
    (∀ acc toks x rest, termLoopF f acc toks = .ok (x, rest) →
       rest <:+ toks) ∧
    (∀ toks x rest, termF f toks = .ok (x, rest) →
       rest <:+ toks ∧ rest.length < toks.length) ∧
    (∀ acc toks x rest, exprLoopF f acc toks = .ok (x, rest) →
       rest <:+ toks) ∧
    (∀ toks x rest, expressionF f toks = .ok (x, rest) →
       rest <:+ toks ∧ rest.length < toks.length) ∧
    (∀ toks x rest, printStatementF f toks = .ok (x, rest) →
       rest <:+ toks ∧ rest.length < toks.length) ∧
    (∀ toks x rest, assignmentStatementF f toks = .ok (x, rest) →
       rest <:+ toks ∧ rest.length < toks.length) ∧
    (∀ toks x rest, blockBodyF f toks = .ok (x, rest) →
       rest <:+ toks ∧ rest.head? = some Token.rbrace) ∧
    (∀ toks x rest, blockF f toks = .ok (x, rest) →
       rest <:+ toks ∧ rest.length < toks.length) ∧
    (∀ toks x rest, statementF f toks = .ok (x, rest) →
       rest <:+ toks ∧ rest.length < toks.length) ∧
    (∀ toks x rest, programLoopF f toks = .ok (x, rest) →
       rest <:+ toks) := by
  intro f
  induction f with
  | zero =>
    refine ⟨?_, ?_, ?_, ?_, ?_, ?_, ?_, ?_, ?_, ?_, ?_⟩
    · intro toks x rest h; simp [factorF] at h
    · intro acc toks x rest h; simp [termLoopF] at h
    · intro toks x rest h; simp [termF] at h
    · intro acc toks x rest h; simp [exprLoopF] at h
    · intro toks x rest h; simp [expressionF] at h
    · intro toks x rest h; simp [printStatementF] at h
    · intro toks x rest h; simp [assignmentStatementF] at h
    · intro toks x rest h; simp [blockBodyF] at h
    · intro toks x rest h; simp [blockF] at h
    · intro toks x rest h; simp [statementF] at h
    · intro toks x rest h; simp [programLoopF] at h
  | succ f ih =>
    obtain ⟨ihFac, ihTL, ihT, ihEL, ihE, ihP, ihA, ihBB, ihB, ihS, ihPL⟩ := ih
    have heat : ∀ (k : String) (toks : List Token) (t : Token)
        (rest : List Token), eat k toks = .ok (t, rest) →
        rest <:+ toks ∧ rest.length < toks.length := by
      intro k toks t rest h
      obtain ⟨heq, _⟩ := eat_eq_ok.mp h
      subst heq
      exact ⟨List.suffix_cons t rest, by simp⟩
    refine ⟨?_, ?_, ?_, ?_, ?_, ?_, ?_, ?_, ?_, ?_, ?_⟩
    -- factorF
    · intro toks x rest h
      match toks with
      | [] => simp [factorF] at h
      | .integer n :: r0 =>
        simp only [factorF] at h
        injection h with h
        injection h with h1 h2
        subst h2
        exact ⟨List.suffix_cons _ _, by simp⟩
      | .float q :: r0 =>
        simp only [factorF] at h
        injection h with h
        injection h with h1 h2
        subst h2
        exact ⟨List.suffix_cons _ _, by simp⟩
      | .str s :: r0 =>
        simp only [factorF] at h
        injection h with h
        injection h with h1 h2
        subst h2
        exact ⟨List.suffix_cons _ _, by simp⟩
      | .identifier s :: r0 =>
        simp only [factorF] at h
        injection h with h
        injection h with h1 h2
        subst h2
        exact ⟨List.suffix_cons _ _, by simp⟩
      | .lparen :: r0 =>
        simp only [factorF] at h
        rw [pbind_eq_ok] at h
        obtain ⟨node, m, hexp, h2⟩ := h
        rw [pbind_eq_ok] at h2
        obtain ⟨t2, m2, hrp, h3⟩ := h2
        injection h3 with h3
        injection h3 with h31 h32
        subst h32
        obtain ⟨hs1, hl1⟩ := ihE r0 node m hexp
        obtain ⟨hs2, hl2⟩ := heat _ m t2 _ hrp
        refine ⟨(hs2.trans hs1).trans (List.suffix_cons _ _), ?_⟩
        simp only [List.length_cons]
        omega
      | .keyword s :: r0 => simp [factorF] at h
      | .operator s :: r0 => simp [factorF] at h
      | .assign :: r0 => simp [factorF] at h
      | .semicolon :: r0 => simp [factorF] at h
      | .rparen :: r0 => simp [factorF] at h
      | .lbrace :: r0 => simp [factorF] at h
      | .rbrace :: r0 => simp [factorF] at h
      | .eof :: r0 => simp [factorF] at h
    -- termLoopF
    · intro acc toks x rest h
      match toks with
      | [] => simp [termLoopF] at h
      | .operator op :: r0 =>
        simp only [termLoopF] at h
        by_cases hop : (op = "*" || op = "/") = true
        · rw [if_pos hop, pbind_eq_ok] at h
          obtain ⟨right, m, hfac, h2⟩ := h
          obtain ⟨hs1, _⟩ := ihFac r0 right m hfac
          have hs2 := ihTL _ m x rest h2
          exact (hs2.trans hs1).trans (List.suffix_cons _ _)
        · rw [if_neg hop] at h
          injection h with h
          injection h with h1 h2
          subst h2
          exact List.suffix_rfl
      | .keyword s :: r0 =>
        simp only [termLoopF] at h
        injection h with h
        injection h with h1 h2
        subst h2
        exact List.suffix_rfl
      | .identifier s :: r0 =>
        simp only [termLoopF] at h
        injection h with h
        injection h with h1 h2
        subst h2
        exact List.suffix_rfl
      | .integer n :: r0 =>
        simp only [termLoopF] at h
        injection h with h
        injection h with h1 h2
        subst h2
        exact List.suffix_rfl
      | .float q :: r0 =>
        simp only [termLoopF] at h
        injection h with h
        injection h with h1 h2
        subst h2
        exact List.suffix_rfl
      | .str s :: r0 =>
        simp only [termLoopF] at h
        injection h with h
        injection h with h1 h2
        subst h2
        exact List.suffix_rfl
      | .assign :: r0 =>
        simp only [termLoopF] at h
        injection h with h
        injection h with h1 h2
        subst h2
        exact List.suffix_rfl
      | .semicolon :: r0 =>
        simp only [termLoopF] at h
        injection h with h
        injection h with h1 h2
        subst h2
        exact List.suffix_rfl
      | .lparen :: r0 =>
        simp only [termLoopF] at h
        injection h with h
        injection h with h1 h2
        subst h2
        exact List.suffix_rfl
      | .rparen :: r0 =>
        simp only [termLoopF] at h
        injection h with h
        injection h with h1 h2
        subst h2
        exact List.suffix_rfl
      | .lbrace :: r0 =>
        simp only [termLoopF] at h
        injection h with h
        injection h with h1 h2
        subst h2
        exact List.suffix_rfl
      | .rbrace :: r0 =>
        simp only [termLoopF] at h
        injection h with h
        injection h with h1 h2
        subst h2
        exact List.suffix_rfl
      | .eof :: r0 =>
        simp only [termLoopF] at h
        injection h with h
        injection h with h1 h2
        subst h2
        exact List.suffix_rfl
    -- termF
    · intro toks x rest h
      simp only [termF] at h
      rw [pbind_eq_ok] at h
      obtain ⟨node, m, hfac, h2⟩ := h
      obtain ⟨hs1, hl1⟩ := ihFac toks node m hfac
      have hs2 := ihTL node m x rest h2
      exact ⟨hs2.trans hs1,
        lt_of_le_of_lt hs2.length_le hl1⟩
    -- exprLoopF
    · intro acc toks x rest h
      match toks with
      | [] => simp [exprLoopF] at h
      | .operator op :: r0 =>
        simp only [exprLoopF] at h
        by_cases hop : (op = "+" || op = "-") = true
        · rw [if_pos hop, pbind_eq_ok] at h
          obtain ⟨right, m, hterm, h2⟩ := h
          obtain ⟨hs1, _⟩ := ihT r0 right m hterm
          have hs2 := ihEL _ m x rest h2
          exact (hs2.trans hs1).trans (List.suffix_cons _ _)
        · rw [if_neg hop] at h
          injection h with h
          injection h with h1 h2
          subst h2
          exact List.suffix_rfl
      | .keyword s :: r0 =>
        simp only [exprLoopF] at h
        injection h with h
        injection h with h1 h2
        subst h2
        exact List.suffix_rfl
      | .identifier s :: r0 =>
        simp only [exprLoopF] at h
        injection h with h
        injection h with h1 h2
        subst h2
        exact List.suffix_rfl
      | .integer n :: r0 =>
        simp only [exprLoopF] at h
        injection h with h
        injection h with h1 h2
        subst h2
        exact List.suffix_rfl
      | .float q :: r0 =>
        simp only [exprLoopF] at h
        injection h with h
        injection h with h1 h2
        subst h2
        exact List.suffix_rfl
      | .str s :: r0 =>
        simp only [exprLoopF] at h
        injection h with h
        injection h with h1 h2
        subst h2
        exact List.suffix_rfl
      | .assign :: r0 =>
        simp only [exprLoopF] at h
        injection h with h
        injection h with h1 h2
        subst h2
        exact List.suffix_rfl
      | .semicolon :: r0 =>
        simp only [exprLoopF] at h
        injection h with h
        injection h with h1 h2
        subst h2
        exact List.suffix_rfl
      | .lparen :: r0 =>
        simp only [exprLoopF] at h
        injection h with h
        injection h with h1 h2
        subst h2
        exact List.suffix_rfl
      | .rparen :: r0 =>
        simp only [exprLoopF] at h
        injection h with h
        injection h with h1 h2
        subst h2
        exact List.suffix_rfl
      | .lbrace :: r0 =>
        simp only [exprLoopF] at h
        injection h with h
        injection h with h1 h2
        subst h2
        exact List.suffix_rfl
      | .rbrace :: r0 =>
        simp only [exprLoopF] at h
        injection h with h
        injection h with h1 h2
        subst h2
        exact List.suffix_rfl
      | .eof :: r0 =>
        simp only [exprLoopF] at h
        injection h with h
        injection h with h1 h2
        subst h2
        exact List.suffix_rfl
    -- expressionF
    · intro toks x rest h
      simp only [expressionF] at h
      rw [pbind_eq_ok] at h
      obtain ⟨node, m, hterm, h2⟩ := h
      obtain ⟨hs1, hl1⟩ := ihT toks node m hterm
      have hs2 := ihEL node m x rest h2
      exact ⟨hs2.trans hs1, lt_of_le_of_lt hs2.length_le hl1⟩
    -- printStatementF
    · intro toks x rest h
      simp only [printStatementF] at h
      rw [pbind_eq_ok] at h
      obtain ⟨t1, r1, h1, h⟩ := h
      rw [pbind_eq_ok] at h
      obtain ⟨t2, r2, h2, h⟩ := h
      rw [pbind_eq_ok] at h
      obtain ⟨expr, r3, h3, h⟩ := h
      rw [pbind_eq_ok] at h
      obtain ⟨t4, r4, h4, h⟩ := h
      rw [pbind_eq_ok] at h
      obtain ⟨t5, r5, h5, h⟩ := h
      injection h with h
      injection h with hx hr
      subst hr
      obtain ⟨hs1, hl1⟩ := heat _ toks t1 r1 h1
      obtain ⟨hs2, hl2⟩ := heat _ r1 t2 r2 h2
      obtain ⟨hs3, hl3⟩ := ihE r2 expr r3 h3
      obtain ⟨hs4, hl4⟩ := heat _ r3 t4 r4 h4
      obtain ⟨hs5, hl5⟩ := heat _ r4 t5 _ h5
      exact ⟨((((hs5.trans hs4).trans hs3).trans hs2).trans hs1), by omega⟩
    -- assignmentStatementF
    · intro toks x rest h
      simp only [assignmentStatementF] at h
      rw [pbind_eq_ok] at h
      obtain ⟨t1, r1, h1, h⟩ := h
      rw [pbind_eq_ok] at h
      obtain ⟨t2, r2, h2, h⟩ := h
      rw [pbind_eq_ok] at h
      obtain ⟨expr, r3, h3, h⟩ := h
      rw [pbind_eq_ok] at h
      obtain ⟨t4, r4, h4, h⟩ := h
      injection h with h
      injection h with hx hr
      subst hr
      obtain ⟨hs1, hl1⟩ := heat _ toks t1 r1 h1
      obtain ⟨hs2, hl2⟩ := heat _ r1 t2 r2 h2
      obtain ⟨hs3, hl3⟩ := ihE r2 expr r3 h3
      obtain ⟨hs4, hl4⟩ := heat _ r3 t4 _ h4
      exact ⟨(((hs4.trans hs3).trans hs2).trans hs1), by omega⟩
    -- blockBodyF
    · intro toks x rest h
      match toks with
      | [] => simp [blockBodyF] at h
      | .rbrace :: r0 =>
        simp only [blockBodyF] at h
        injection h with h
        injection h with h1 h2
        subst h2
        exact ⟨List.suffix_rfl, rfl⟩
      | .keyword s :: r0 =>
        simp only [blockBodyF] at h
        rw [pbind_eq_ok] at h
        obtain ⟨s1, r1, h1, h⟩ := h
        rw [pbind_eq_ok] at h
        obtain ⟨ss, r2, h2, h⟩ := h
        injection h with h
        injection h with hx hr
        subst hr
        obtain ⟨hs1, _⟩ := ihS _ s1 r1 h1
        obtain ⟨hs2, hhd⟩ := ihBB r1 ss _ h2
        exact ⟨hs2.trans hs1, hhd⟩
      | .identifier s :: r0 =>
        simp only [blockBodyF] at h
        rw [pbind_eq_ok] at h
        obtain ⟨s1, r1, h1, h⟩ := h
        rw [pbind_eq_ok] at h
        obtain ⟨ss, r2, h2, h⟩ := h
        injection h with h
        injection h with hx hr
        subst hr
        obtain ⟨hs1, _⟩ := ihS _ s1 r1 h1
        obtain ⟨hs2, hhd⟩ := ihBB r1 ss _ h2
        exact ⟨hs2.trans hs1, hhd⟩
      | .integer n :: r0 =>
        simp only [blockBodyF] at h
        rw [pbind_eq_ok] at h
        obtain ⟨s1, r1, h1, h⟩ := h
        rw [pbind_eq_ok] at h
        obtain ⟨ss, r2, h2, h⟩ := h
        injection h with h
        injection h with hx hr
        subst hr
        obtain ⟨hs1, _⟩ := ihS _ s1 r1 h1
        obtain ⟨hs2, hhd⟩ := ihBB r1 ss _ h2
        exact ⟨hs2.trans hs1, hhd⟩
      | .float q :: r0 =>
        simp only [blockBodyF] at h
        rw [pbind_eq_ok] at h
        obtain ⟨s1, r1, h1, h⟩ := h
        rw [pbind_eq_ok] at h
        obtain ⟨ss, r2, h2, h⟩ := h
        injection h with h
        injection h with hx hr
        subst hr
        obtain ⟨hs1, _⟩ := ihS _ s1 r1 h1
        obtain ⟨hs2, hhd⟩ := ihBB r1 ss _ h2
        exact ⟨hs2.trans hs1, hhd⟩
      | .str s :: r0 =>
        simp only [blockBodyF] at h
        rw [pbind_eq_ok] at h
        obtain ⟨s1, r1, h1, h⟩ := h
        rw [pbind_eq_ok] at h
        obtain ⟨ss, r2, h2, h⟩ := h
        injection h with h
        injection h with hx hr
        subst hr
        obtain ⟨hs1, _⟩ := ihS _ s1 r1 h1
        obtain ⟨hs2, hhd⟩ := ihBB r1 ss _ h2
        exact ⟨hs2.trans hs1, hhd⟩
      | .operator s :: r0 =>
        simp only [blockBodyF] at h
        rw [pbind_eq_ok] at h
        obtain ⟨s1, r1, h1, h⟩ := h
        rw [pbind_eq_ok] at h
        obtain ⟨ss, r2, h2, h⟩ := h
        injection h with h
        injection h with hx hr
        subst hr
        obtain ⟨hs1, _⟩ := ihS _ s1 r1 h1
        obtain ⟨hs2, hhd⟩ := ihBB r1 ss _ h2
        exact ⟨hs2.trans hs1, hhd⟩
      | .assign :: r0 =>
        simp only [blockBodyF] at h
        rw [pbind_eq_ok] at h
        obtain ⟨s1, r1, h1, h⟩ := h
        rw [pbind_eq_ok] at h
        obtain ⟨ss, r2, h2, h⟩ := h
        injection h with h
        injection h with hx hr
        subst hr
        obtain ⟨hs1, _⟩ := ihS _ s1 r1 h1
        obtain ⟨hs2, hhd⟩ := ihBB r1 ss _ h2
        exact ⟨hs2.trans hs1, hhd⟩
      | .semicolon :: r0 =>
        simp only [blockBodyF] at h
        rw [pbind_eq_ok] at h
        obtain ⟨s1, r1, h1, h⟩ := h
        rw [pbind_eq_ok] at h
        obtain ⟨ss, r2, h2, h⟩ := h
        injection h with h
        injection h with hx hr
        subst hr
        obtain ⟨hs1, _⟩ := ihS _ s1 r1 h1
        obtain ⟨hs2, hhd⟩ := ihBB r1 ss _ h2
        exact ⟨hs2.trans hs1, hhd⟩
      | .lparen :: r0 =>
        simp only [blockBodyF] at h
        rw [pbind_eq_ok] at h
        obtain ⟨s1, r1, h1, h⟩ := h
        rw [pbind_eq_ok] at h
        obtain ⟨ss, r2, h2, h⟩ := h
        injection h with h
        injection h with hx hr
        subst hr
        obtain ⟨hs1, _⟩ := ihS _ s1 r1 h1
        obtain ⟨hs2, hhd⟩ := ihBB r1 ss _ h2
        exact ⟨hs2.trans hs1, hhd⟩
      | .rparen :: r0 =>
        simp only [blockBodyF] at h
        rw [pbind_eq_ok] at h
        obtain ⟨s1, r1, h1, h⟩ := h
        rw [pbind_eq_ok] at h
        obtain ⟨ss, r2, h2, h⟩ := h
        injection h with h
        injection h with hx hr
        subst hr
        obtain ⟨hs1, _⟩ := ihS _ s1 r1 h1
        obtain ⟨hs2, hhd⟩ := ihBB r1 ss _ h2
        exact ⟨hs2.trans hs1, hhd⟩
      | .lbrace :: r0 =>
        simp only [blockBodyF] at h
        rw [pbind_eq_ok] at h
        obtain ⟨s1, r1, h1, h⟩ := h
        rw [pbind_eq_ok] at h
        obtain ⟨ss, r2, h2, h⟩ := h
        injection h with h
        injection h with hx hr
        subst hr
        obtain ⟨hs1, _⟩ := ihS _ s1 r1 h1
        obtain ⟨hs2, hhd⟩ := ihBB r1 ss _ h2
        exact ⟨hs2.trans hs1, hhd⟩
      | .eof :: r0 =>
        simp only [blockBodyF] at h
        rw [pbind_eq_ok] at h
        obtain ⟨s1, r1, h1, h⟩ := h
        rw [pbind_eq_ok] at h
        obtain ⟨ss, r2, h2, h⟩ := h
        injection h with h
        injection h with hx hr
        subst hr
        obtain ⟨hs1, _⟩ := ihS _ s1 r1 h1
        obtain ⟨hs2, hhd⟩ := ihBB r1 ss _ h2
        exact ⟨hs2.trans hs1, hhd⟩
    -- blockF
    · intro toks x rest h
      simp only [blockF] at h
      rw [pbind_eq_ok] at h
      obtain ⟨t1, r1, h1, h⟩ := h
      rw [pbind_eq_ok] at h
      obtain ⟨ss, r2, h2, h⟩ := h
      rw [pbind_eq_ok] at h
      obtain ⟨t3, r3, h3, h⟩ := h
      injection h with h
      injection h with hx hr
      subst hr
      obtain ⟨hs1, hl1⟩ := heat _ toks t1 r1 h1
      obtain ⟨hs2, _⟩ := ihBB r1 ss r2 h2
      obtain ⟨hs3, hl3⟩ := heat _ r2 t3 _ h3
      refine ⟨((hs3.trans hs2).trans hs1), ?_⟩
      have := hs2.length_le
      omega
    -- statementF
    · intro toks x rest h
      match toks with
      | [] => simp [statementF] at h
      | .keyword k :: r0 =>
        simp only [statementF] at h
        by_cases hk : k = "print"
        · rw [if_pos hk] at h
          exact ihP _ x rest h
        · rw [if_neg hk] at h
          exact absurd h (by simp)
      | .identifier s :: r0 =>
        simp only [statementF] at h
        exact ihA _ x rest h
      | .lbrace :: r0 =>
        simp only [statementF] at h
        exact ihB _ x rest h
      | .integer n :: r0 => simp [statementF] at h
      | .float q :: r0 => simp [statementF] at h
      | .str s :: r0 => simp [statementF] at h
      | .operator s :: r0 => simp [statementF] at h
      | .assign :: r0 => simp [statementF] at h
      | .semicolon :: r0 => simp [statementF] at h
      | .lparen :: r0 => simp [statementF] at h
      | .rparen :: r0 => simp [statementF] at h
      | .rbrace :: r0 => simp [statementF] at h
      | .eof :: r0 => simp [statementF] at h
    -- programLoopF
    · intro toks x rest h
      match toks with
      | [] => simp [programLoopF] at h
      | .eof :: r0 =>
        simp only [programLoopF] at h
        injection h with h
        injection h with h1 h2
        subst h2
        exact List.suffix_rfl
      | .keyword s :: r0 =>
        simp only [programLoopF] at h
        rw [pbind_eq_ok] at h
        obtain ⟨s1, r1, h1, h⟩ := h
        rw [pbind_eq_ok] at h
        obtain ⟨ss, r2, h2, h⟩ := h
        injection h with h
        injection h with hx hr
        subst hr
        obtain ⟨hs1, _⟩ := ihS _ s1 r1 h1
        exact (ihPL r1 ss _ h2).trans hs1
      | .identifier s :: r0 =>
        simp only [programLoopF] at h
        rw [pbind_eq_ok] at h
        obtain ⟨s1, r1, h1, h⟩ := h
        rw [pbind_eq_ok] at h
        obtain ⟨ss, r2, h2, h⟩ := h
        injection h with h
        injection h with hx hr
        subst hr
        obtain ⟨hs1, _⟩ := ihS _ s1 r1 h1
        exact (ihPL r1 ss _ h2).trans hs1
      | .integer n :: r0 =>
        simp only [programLoopF] at h
        rw [pbind_eq_ok] at h
        obtain ⟨s1, r1, h1, h⟩ := h
        rw [pbind_eq_ok] at h
        obtain ⟨ss, r2, h2, h⟩ := h
        injection h with h
        injection h with hx hr
        subst hr
        obtain ⟨hs1, _⟩ := ihS _ s1 r1 h1
        exact (ihPL r1 ss _ h2).trans hs1
      | .float q :: r0 =>
        simp only [programLoopF] at h
        rw [pbind_eq_ok] at h
        obtain ⟨s1, r1, h1, h⟩ := h
        rw [pbind_eq_ok] at h
        obtain ⟨ss, r2, h2, h⟩ := h
        injection h with h
        injection h with hx hr
        subst hr
        obtain ⟨hs1, _⟩ := ihS _ s1 r1 h1
        exact (ihPL r1 ss _ h2).trans hs1
      | .str s :: r0 =>
        simp only [programLoopF] at h
        rw [pbind_eq_ok] at h
        obtain ⟨s1, r1, h1, h⟩ := h
        rw [pbind_eq_ok] at h
        obtain ⟨ss, r2, h2, h⟩ := h
        injection h with h
        injection h with hx hr
        subst hr
        obtain ⟨hs1, _⟩ := ihS _ s1 r1 h1
        exact (ihPL r1 ss _ h2).trans hs1
      | .operator s :: r0 =>
        simp only [programLoopF] at h
        rw [pbind_eq_ok] at h
        obtain ⟨s1, r1, h1, h⟩ := h
        rw [pbind_eq_ok] at h
        obtain ⟨ss, r2, h2, h⟩ := h
        injection h with h
        injection h with hx hr
        subst hr
        obtain ⟨hs1, _⟩ := ihS _ s1 r1 h1
        exact (ihPL r1 ss _ h2).trans hs1
      | .assign :: r0 =>
        simp only [programLoopF] at h
        rw [pbind_eq_ok] at h
        obtain ⟨s1, r1, h1, h⟩ := h
        rw [pbind_eq_ok] at h
        obtain ⟨ss, r2, h2, h⟩ := h
        injection h with h
        injection h with hx hr
        subst hr
        obtain ⟨hs1, _⟩ := ihS _ s1 r1 h1
        exact (ihPL r1 ss _ h2).trans hs1
      | .semicolon :: r0 =>
        simp only [programLoopF] at h
        rw [pbind_eq_ok] at h
        obtain ⟨s1, r1, h1, h⟩ := h
        rw [pbind_eq_ok] at h
        obtain ⟨ss, r2, h2, h⟩ := h
        injection h with h
        injection h with hx hr
        subst hr
        obtain ⟨hs1, _⟩ := ihS _ s1 r1 h1
        exact (ihPL r1 ss _ h2).trans hs1
      | .lparen :: r0 =>
        simp only [programLoopF] at h
        rw [pbind_eq_ok] at h
        obtain ⟨s1, r1, h1, h⟩ := h
        rw [pbind_eq_ok] at h
        obtain ⟨ss, r2, h2, h⟩ := h
        injection h with h
        injection h with hx hr
        subst hr
        obtain ⟨hs1, _⟩ := ihS _ s1 r1 h1
        exact (ihPL r1 ss _ h2).trans hs1
      | .rparen :: r0 =>
        simp only [programLoopF] at h
        rw [pbind_eq_ok] at h
        obtain ⟨s1, r1, h1, h⟩ := h
        rw [pbind_eq_ok] at h
        obtain ⟨ss, r2, h2, h⟩ := h
        injection h with h
        injection h with hx hr
        subst hr
        obtain ⟨hs1, _⟩ := ihS _ s1 r1 h1
        exact (ihPL r1 ss _ h2).trans hs1
      | .lbrace :: r0 =>
        simp only [programLoopF] at h
        rw [pbind_eq_ok] at h
        obtain ⟨s1, r1, h1, h⟩ := h
        rw [pbind_eq_ok] at h
        obtain ⟨ss, r2, h2, h⟩ := h
        injection h with h
        injection h with hx hr
        subst hr
        obtain ⟨hs1, _⟩ := ihS _ s1 r1 h1
        exact (ihPL r1 ss _ h2).trans hs1
      | .rbrace :: r0 =>
        simp only [programLoopF] at h
        rw [pbind_eq_ok] at h
        obtain ⟨s1, r1, h1, h⟩ := h
        rw [pbind_eq_ok] at h
        obtain ⟨ss, r2, h2, h⟩ := h
        injection h with h
        injection h with hx hr
        subst hr
        obtain ⟨hs1, _⟩ := ihS _ s1 r1 h1
        exact (ihPL r1 ss _ h2).trans hs1

/-- `eat` never raises the `None`-subscript crash on a nonempty token
list, and never runs out of fuel. -/
theorem eat_error_shape {k : String} {toks : List Token} {e : SynError}
    (hne : toks ≠ []) (h : eat k toks = .error e) :
    ∃ got, e = .expected k got := by
  cases toks with
  | nil => exact absurd rfl hne
  | cons t r => exact ⟨t.kind, eat_eq_error h⟩

/-- `eat` can fail with the crash marker only on the empty list, and
never with the fuel marker. -/
theorem eat_error_ne_fuelOut {k : String} {toks : List Token} {e : SynError}
    (h : eat k toks = .error e) : e ≠ .fuelOut := by
  cases toks with
  | nil =>
    rw [eat] at h
    injection h with h
    subst h
    simp
  | cons t r =>
    have := eat_eq_error h
    subst this
    simp

/-- On EOF-terminated token lists no parser function ever raises the
`None`-subscript crash, and every successful parse leaves an EOF-
terminated remainder. -/
theorem parser_no_crash : ∀ f : Nat,
    (∀ toks, eofTerm toks →
       (∀ e, factorF f toks = .error e → e ≠ .noneCrash) ∧
       (∀ x rest, factorF f toks = .ok (x, rest) → eofTerm rest)) ∧
    (∀ acc toks, eofTerm toks →
       (∀ e, termLoopF f acc toks = .error e → e ≠ .noneCrash) ∧
       (∀ x rest, termLoopF f acc toks = .ok (x, rest) → eofTerm rest)) ∧
    (∀ toks, eofTerm toks →
       (∀ e, termF f toks = .error e → e ≠ .noneCrash) ∧
       (∀ x rest, termF f toks = .ok (x, rest) → eofTerm rest)) ∧
    (∀ acc toks, eofTerm toks →
       (∀ e, exprLoopF f acc toks = .error e → e ≠ .noneCrash) ∧
       (∀ x rest, exprLoopF f acc toks = .ok (x, rest) → eofTerm rest)) ∧
    (∀ toks, eofTerm toks →
       (∀ e, expressionF f toks = .error e → e ≠ .noneCrash) ∧
       (∀ x rest, expressionF f toks = .ok (x, rest) → eofTerm rest)) ∧
    (∀ toks, eofTerm toks →
       (∀ e, printStatementF f toks = .error e → e ≠ .noneCrash) ∧
       (∀ x rest, printStatementF f toks = .ok (x, rest) → eofTerm rest)) ∧
    (∀ toks, eofTerm toks →
       (∀ e, assignmentStatementF f toks = .error e → e ≠ .noneCrash) ∧
       (∀ x rest, assignmentStatementF f toks = .ok (x, rest) →
         eofTerm rest)) ∧
    (∀ toks, eofTerm toks →
       (∀ e, blockBodyF f toks = .error e → e ≠ .noneCrash) ∧
       (∀ x rest, blockBodyF f toks = .ok (x, rest) → eofTerm rest)) ∧
    (∀ toks, eofTerm toks →
       (∀ e, blockF f toks = .error e → e ≠ .noneCrash) ∧
       (∀ x rest, blockF f toks = .ok (x, rest) → eofTerm rest)) ∧
    (∀ toks, eofTerm toks →
       (∀ e, statementF f toks = .error e → e ≠ .noneCrash) ∧
       (∀ x rest, statementF f toks = .ok (x, rest) → eofTerm rest)) ∧
    (∀ toks, eofTerm toks →
       (∀ e, programLoopF f toks = .error e → e ≠ .noneCrash) ∧
       (∀ x rest, programLoopF f toks = .ok (x, rest) → eofTerm rest)) := by
  intro f
  induction f with
  | zero =>
    refine ⟨?_, ?_, ?_, ?_, ?_, ?_, ?_, ?_, ?_, ?_, ?_⟩
    · intro toks _
      refine ⟨fun e h => ?_, fun x rest h => ?_⟩
      · simp only [factorF] at h
        injection h with h
        subst h
        simp
      · simp only [factorF] at h
        exact absurd h (by simp)
    · intro acc toks _
      refine ⟨fun e h => ?_, fun x rest h => ?_⟩
      · simp only [termLoopF] at h
        injection h with h
        subst h
        simp
      · simp only [termLoopF] at h
        exact absurd h (by simp)
    · intro toks _
      refine ⟨fun e h => ?_, fun x rest h => ?_⟩
      · simp only [termF] at h
        injection h with h
        subst h
        simp
      · simp only [termF] at h
        exact absurd h (by simp)
    · intro acc toks _
      refine ⟨fun e h => ?_, fun x rest h => ?_⟩
      · simp only [exprLoopF] at h
        injection h with h
        subst h
        simp
      · simp only [exprLoopF] at h
        exact absurd h (by simp)
    · intro toks _
      refine ⟨fun e h => ?_, fun x rest h => ?_⟩
      · simp only [expressionF] at h
        injection h with h
        subst h
        simp
      · simp only [expressionF] at h
        exact absurd h (by simp)
    · intro toks _
      refine ⟨fun e h => ?_, fun x rest h => ?_⟩
      · simp only [printStatementF] at h
        injection h with h
        subst h
        simp
      · simp only [printStatementF] at h
        exact absurd h (by simp)
    · intro toks _
      refine ⟨fun e h => ?_, fun x rest h => ?_⟩
      · simp only [assignmentStatementF] at h
        injection h with h
        subst h
        simp
      · simp only [assignmentStatementF] at h
        exact absurd h (by simp)
    · intro toks _
      refine ⟨fun e h => ?_, fun x rest h => ?_⟩
      · simp only [blockBodyF] at h
        injection h with h
        subst h
        simp
      · simp only [blockBodyF] at h
        exact absurd h (by simp)
    · intro toks _
      refine ⟨fun e h => ?_, fun x rest h => ?_⟩
      · simp only [blockF] at h
        injection h with h
        subst h
        simp
      · simp only [blockF] at h
        exact absurd h (by simp)
    · intro toks _
      refine ⟨fun e h => ?_, fun x rest h => ?_⟩
      · simp only [statementF] at h
        injection h with h
        subst h
        simp
      · simp only [statementF] at h
        exact absurd h (by simp)
    · intro toks _
      refine ⟨fun e h => ?_, fun x rest h => ?_⟩
      · simp only [programLoopF] at h
        injection h with h
        subst h
        simp
      · simp only [programLoopF] at h
        exact absurd h (by simp)
  | succ f ih =>
    obtain ⟨ihFac, ihTL, ihT, ihEL, ihE, ihP, ihA, ihBB, ihB, ihS, ihPL⟩ := ih
    refine ⟨?_, ?_, ?_, ?_, ?_, ?_, ?_, ?_, ?_, ?_, ?_⟩
    -- factorF
    · intro toks het
      obtain ⟨t, r0, rfl⟩ : ∃ t r0, toks = t :: r0 := by
        cases toks with
        | nil => exact absurd rfl (eofTerm_ne_nil het)
        | cons t r0 => exact ⟨t, r0, rfl⟩
      constructor
      · intro e h
        cases t
        case lparen =>
          have hr0 : eofTerm r0 := eofTerm_tail (by simp) het
          simp only [factorF] at h
          rw [pbind_eq_error] at h
          rcases h with h | ⟨node, m, hexp, h2⟩
          · exact (ihE r0 hr0).1 e h
          · have hm : eofTerm m := (ihE r0 hr0).2 node m hexp
            rw [pbind_eq_error] at h2
            rcases h2 with h2 | ⟨t3, m3, hrp, h3⟩
            · obtain ⟨got, rfl⟩ :=
                eat_error_shape (eofTerm_ne_nil hm) h2
              simp
            · exact absurd h3 (by simp)
        all_goals
          simp only [factorF] at h
          first
            | (injection h with h; subst h; simp)
            | simp at h
      · intro x rest h
        cases t
        case lparen =>
          have hr0 : eofTerm r0 := eofTerm_tail (by simp) het
          simp only [factorF] at h
          rw [pbind_eq_ok] at h
          obtain ⟨node, m, hexp, h2⟩ := h
          have hm : eofTerm m := (ihE r0 hr0).2 node m hexp
          rw [pbind_eq_ok] at h2
          obtain ⟨t3, m3, hrp, h3⟩ := h2
          injection h3 with h3
          injection h3 with h31 h32
          subst h32
          exact eat_eofTerm (by simp) hrp hm
        all_goals
          simp only [factorF] at h
          first
            | (injection h with h; injection h with h1 h2; subst h2;
               exact eofTerm_tail (by simp) het)
            | simp at h
    -- termLoopF
    · intro acc toks het
      obtain ⟨t, r0, rfl⟩ : ∃ t r0, toks = t :: r0 := by
        cases toks with
        | nil => exact absurd rfl (eofTerm_ne_nil het)
        | cons t r0 => exact ⟨t, r0, rfl⟩
      constructor
      · intro e h
        cases t
        case operator op =>
          simp only [termLoopF] at h
          by_cases hop : (op = "*" || op = "/") = true
          · rw [if_pos hop, pbind_eq_error] at h
            have hr0 : eofTerm r0 := eofTerm_tail (by simp) het
            rcases h with h | ⟨right, m, hfac, h2⟩
            · exact (ihFac r0 hr0).1 e h
            · exact (ihTL _ m ((ihFac r0 hr0).2 right m hfac)).1 e h2
          · rw [if_neg hop] at h
            exact absurd h (by simp)
        all_goals
          simp only [termLoopF] at h
          exact absurd h (by simp)
      · intro x rest h
        cases t
        case operator op =>
          simp only [termLoopF] at h
          by_cases hop : (op = "*" || op = "/") = true
          · rw [if_pos hop, pbind_eq_ok] at h
            have hr0 : eofTerm r0 := eofTerm_tail (by simp) het
            obtain ⟨right, m, hfac, h2⟩ := h
            exact (ihTL _ m ((ihFac r0 hr0).2 right m hfac)).2 x rest h2
          · rw [if_neg hop] at h
            injection h with h
            injection h with h1 h2
            subst h2
            exact het
        all_goals
          simp only [termLoopF] at h
          injection h with h
          injection h with h1 h2
          subst h2
          exact het
    -- termF
    · intro toks het
      constructor
      · intro e h
        simp only [termF] at h
        rw [pbind_eq_error] at h
        rcases h with h | ⟨node, m, hfac, h2⟩
        · exact (ihFac toks het).1 e h
        · exact (ihTL node m ((ihFac toks het).2 node m hfac)).1 e h2
      · intro x rest h
        simp only [termF] at h
        rw [pbind_eq_ok] at h
        obtain ⟨node, m, hfac, h2⟩ := h
        exact (ihTL node m ((ihFac toks het).2 node m hfac)).2 x rest h2
    -- exprLoopF
    · intro acc toks het
      obtain ⟨t, r0, rfl⟩ : ∃ t r0, toks = t :: r0 := by
        cases toks with
        | nil => exact absurd rfl (eofTerm_ne_nil het)
        | cons t r0 => exact ⟨t, r0, rfl⟩
      constructor
      · intro e h
        cases t
        case operator op =>
          simp only [exprLoopF] at h
          by_cases hop : (op = "+" || op = "-") = true
          · rw [if_pos hop, pbind_eq_error] at h
            have hr0 : eofTerm r0 := eofTerm_tail (by simp) het
            rcases h with h | ⟨right, m, hterm, h2⟩
            · exact (ihT r0 hr0).1 e h
            · exact (ihEL _ m ((ihT r0 hr0).2 right m hterm)).1 e h2
          · rw [if_neg hop] at h
            exact absurd h (by simp)
        all_goals
          simp only [exprLoopF] at h
          exact absurd h (by simp)
      · intro x rest h
        cases t
        case operator op =>
          simp only [exprLoopF] at h
          by_cases hop : (op = "+" || op = "-") = true
          · rw [if_pos hop, pbind_eq_ok] at h
            have hr0 : eofTerm r0 := eofTerm_tail (by simp) het
            obtain ⟨right, m, hterm, h2⟩ := h
            exact (ihEL _ m ((ihT r0 hr0).2 right m hterm)).2 x rest h2
          · rw [if_neg hop] at h
            injection h with h
            injection h with h1 h2
            subst h2
            exact het
        all_goals
          simp only [exprLoopF] at h
          injection h with h
          injection h with h1 h2
          subst h2
          exact het
    -- expressionF
    · intro toks het
      constructor
      · intro e h
        simp only [expressionF] at h
        rw [pbind_eq_error] at h
        rcases h with h | ⟨node, m, hterm, h2⟩
        · exact (ihT toks het).1 e h
        · exact (ihEL node m ((ihT toks het).2 node m hterm)).1 e h2
      · intro x rest h
        simp only [expressionF] at h
        rw [pbind_eq_ok] at h
        obtain ⟨node, m, hterm, h2⟩ := h
        exact (ihEL node m ((ihT toks het).2 node m hterm)).2 x rest h2
    -- printStatementF
    · intro toks het
      constructor
      · intro e h
        simp only [printStatementF] at h
        rw [pbind_eq_error] at h
        rcases h with h | ⟨t1, r1, h1, h⟩
        · obtain ⟨got, rfl⟩ := eat_error_shape (eofTerm_ne_nil het) h
          simp
        · have hr1 : eofTerm r1 := eat_eofTerm (by decide) h1 het
          rw [pbind_eq_error] at h
          rcases h with h | ⟨t2, r2, h2, h⟩
          · obtain ⟨got, rfl⟩ := eat_error_shape (eofTerm_ne_nil hr1) h
            simp
          · have hr2 : eofTerm r2 := eat_eofTerm (by decide) h2 hr1
            rw [pbind_eq_error] at h
            rcases h with h | ⟨expr, r3, h3, h⟩
            · exact (ihE r2 hr2).1 e h
            · have hr3 : eofTerm r3 := (ihE r2 hr2).2 expr r3 h3
              rw [pbind_eq_error] at h
              rcases h with h | ⟨t4, r4, h4, h⟩
              · obtain ⟨got, rfl⟩ := eat_error_shape (eofTerm_ne_nil hr3) h
                simp
              · have hr4 : eofTerm r4 := eat_eofTerm (by decide) h4 hr3
                rw [pbind_eq_error] at h
                rcases h with h | ⟨t5, r5, h5, h⟩
                · obtain ⟨got, rfl⟩ :=
                    eat_error_shape (eofTerm_ne_nil hr4) h
                  simp
                · exact absurd h (by simp)
      · intro x rest h
        simp only [printStatementF] at h
        rw [pbind_eq_ok] at h
        obtain ⟨t1, r1, h1, h⟩ := h
        have hr1 : eofTerm r1 := eat_eofTerm (by decide) h1 het
        rw [pbind_eq_ok] at h
        obtain ⟨t2, r2, h2, h⟩ := h
        have hr2 : eofTerm r2 := eat_eofTerm (by decide) h2 hr1
        rw [pbind_eq_ok] at h
        obtain ⟨expr, r3, h3, h⟩ := h
        have hr3 : eofTerm r3 := (ihE r2 hr2).2 expr r3 h3
        rw [pbind_eq_ok] at h
        obtain ⟨t4, r4, h4, h⟩ := h
        have hr4 : eofTerm r4 := eat_eofTerm (by decide) h4 hr3
        rw [pbind_eq_ok] at h
        obtain ⟨t5, r5, h5, h⟩ := h
        have hr5 : eofTerm r5 := eat_eofTerm (by decide) h5 hr4
        injection h with h
        injection h with hx hr
        subst hr
        exact hr5
    -- assignmentStatementF
    · intro toks het
      constructor
      · intro e h
        simp only [assignmentStatementF] at h
        rw [pbind_eq_error] at h
        rcases h with h | ⟨t1, r1, h1, h⟩
        · obtain ⟨got, rfl⟩ := eat_error_shape (eofTerm_ne_nil het) h
          simp
        · have hr1 : eofTerm r1 := eat_eofTerm (by decide) h1 het
          rw [pbind_eq_error] at h
          rcases h with h | ⟨t2, r2, h2, h⟩
          · obtain ⟨got, rfl⟩ := eat_error_shape (eofTerm_ne_nil hr1) h
            simp
          · have hr2 : eofTerm r2 := eat_eofTerm (by decide) h2 hr1
            rw [pbind_eq_error] at h
            rcases h with h | ⟨expr, r3, h3, h⟩
            · exact (ihE r2 hr2).1 e h
            · have hr3 : eofTerm r3 := (ihE r2 hr2).2 expr r3 h3
              rw [pbind_eq_error] at h
              rcases h with h | ⟨t4, r4, h4, h⟩
              · obtain ⟨got, rfl⟩ := eat_error_shape (eofTerm_ne_nil hr3) h
                simp
              · exact absurd h (by simp)
      · intro x rest h
        simp only [assignmentStatementF] at h
        rw [pbind_eq_ok] at h
        obtain ⟨t1, r1, h1, h⟩ := h
        have hr1 : eofTerm r1 := eat_eofTerm (by decide) h1 het
        rw [pbind_eq_ok] at h
        obtain ⟨t2, r2, h2, h⟩ := h
        have hr2 : eofTerm r2 := eat_eofTerm (by decide) h2 hr1
        rw [pbind_eq_ok] at h
        obtain ⟨expr, r3, h3, h⟩ := h
        have hr3 : eofTerm r3 := (ihE r2 hr2).2 expr r3 h3
        rw [pbind_eq_ok] at h
        obtain ⟨t4, r4, h4, h⟩ := h
        have hr4 : eofTerm r4 := eat_eofTerm (by decide) h4 hr3
        injection h with h
        injection h with hx hr
        subst hr
        exact hr4
    -- blockBodyF
    · intro toks het
      obtain ⟨t, r0, rfl⟩ : ∃ t r0, toks = t :: r0 := by
        cases toks with
        | nil => exact absurd rfl (eofTerm_ne_nil het)
        | cons t r0 => exact ⟨t, r0, rfl⟩
      constructor
      · intro e h
        cases t
        case rbrace =>
          simp only [blockBodyF] at h
          exact absurd h (by simp)
        all_goals
          simp only [blockBodyF] at h
          rw [pbind_eq_error] at h
          rcases h with h | ⟨s1, r1, h1, h⟩
          · exact (ihS _ het).1 e h
          · have hr1 : eofTerm r1 := (ihS _ het).2 s1 r1 h1
            rw [pbind_eq_error] at h
            rcases h with h | ⟨ss, r2, h2, h⟩
            · exact (ihBB r1 hr1).1 e h
            · exact absurd h (by simp)
      · intro x rest h
        cases t
        case rbrace =>
          simp only [blockBodyF] at h
          injection h with h
          injection h with h1 h2
          subst h2
          exact het
        all_goals
          simp only [blockBodyF] at h
          rw [pbind_eq_ok] at h
          obtain ⟨s1, r1, h1, h⟩ := h
          have hr1 : eofTerm r1 := (ihS _ het).2 s1 r1 h1
          rw [pbind_eq_ok] at h
          obtain ⟨ss, r2, h2, h⟩ := h
          injection h with h
          injection h with hx hr
          subst hr
          exact (ihBB r1 hr1).2 ss _ h2
    -- blockF
    · intro toks het
      constructor
      · intro e h
        simp only [blockF] at h
        rw [pbind_eq_error] at h
        rcases h with h | ⟨t1, r1, h1, h⟩
        · obtain ⟨got, rfl⟩ := eat_error_shape (eofTerm_ne_nil het) h
          simp
        · have hr1 : eofTerm r1 := eat_eofTerm (by decide) h1 het
          rw [pbind_eq_error] at h
          rcases h with h | ⟨ss, r2, h2, h⟩
          · exact (ihBB r1 hr1).1 e h
          · have hr2 : eofTerm r2 := (ihBB r1 hr1).2 ss r2 h2
            rw [pbind_eq_error] at h
            rcases h with h | ⟨t3, r3, h3, h⟩
            · obtain ⟨got, rfl⟩ := eat_error_shape (eofTerm_ne_nil hr2) h
              simp
            · exact absurd h (by simp)
      · intro x rest h
        simp only [blockF] at h
        rw [pbind_eq_ok] at h
        obtain ⟨t1, r1, h1, h⟩ := h
        have hr1 : eofTerm r1 := eat_eofTerm (by decide) h1 het
        rw [pbind_eq_ok] at h
        obtain ⟨ss, r2, h2, h⟩ := h
        have hr2 : eofTerm r2 := (ihBB r1 hr1).2 ss r2 h2
        rw [pbind_eq_ok] at h
        obtain ⟨t3, r3, h3, h⟩ := h
        have hr3 : eofTerm r3 := eat_eofTerm (by decide) h3 hr2
        injection h with h
        injection h with hx hr
        subst hr
        exact hr3
    -- statementF
    · intro toks het
      obtain ⟨t, r0, rfl⟩ : ∃ t r0, toks = t :: r0 := by
        cases toks with
        | nil => exact absurd rfl (eofTerm_ne_nil het)
        | cons t r0 => exact ⟨t, r0, rfl⟩
      constructor
      · intro e h
        cases t
        case keyword k =>
          simp only [statementF] at h
          by_cases hk : k = "print"
          · rw [if_pos hk] at h
            exact (ihP _ het).1 e h
          · rw [if_neg hk] at h
            injection h with h
            subst h
            simp
        case identifier s =>
          simp only [statementF] at h
          exact (ihA _ het).1 e h
        case lbrace =>
          simp only [statementF] at h
          exact (ihB _ het).1 e h
        all_goals
          simp only [statementF] at h
          injection h with h
          subst h
          simp
      · intro x rest h
        cases t
        case keyword k =>
          simp only [statementF] at h
          by_cases hk : k = "print"
          · rw [if_pos hk] at h
            exact (ihP _ het).2 x rest h
          · rw [if_neg hk] at h
            exact absurd h (by simp)
        case identifier s =>
          simp only [statementF] at h
          exact (ihA _ het).2 x rest h
        case lbrace =>
          simp only [statementF] at h
          exact (ihB _ het).2 x rest h
        all_goals
          simp only [statementF] at h
          exact absurd h (by simp)
    -- programLoopF
    · intro toks het
      obtain ⟨t, r0, rfl⟩ : ∃ t r0, toks = t :: r0 := by
        cases toks with
        | nil => exact absurd rfl (eofTerm_ne_nil het)
        | cons t r0 => exact ⟨t, r0, rfl⟩
      constructor
      · intro e h
        cases t
        case eof =>
          simp only [programLoopF] at h
          exact absurd h (by simp)
        all_goals
          simp only [programLoopF] at h
          rw [pbind_eq_error] at h
          rcases h with h | ⟨s1, r1, h1, h⟩
          · exact (ihS _ het).1 e h
          · have hr1 : eofTerm r1 := (ihS _ het).2 s1 r1 h1
            rw [pbind_eq_error] at h
            rcases h with h | ⟨ss, r2, h2, h⟩
            · exact (ihPL r1 hr1).1 e h
            · exact absurd h (by simp)
      · intro x rest h
        cases t
        case eof =>
          simp only [programLoopF] at h
          injection h with h
          injection h with h1 h2
          subst h2
          exact het
        all_goals
          simp only [programLoopF] at h
          rw [pbind_eq_ok] at h
          obtain ⟨s1, r1, h1, h⟩ := h
          have hr1 : eofTerm r1 := (ihS _ het).2 s1 r1 h1
          rw [pbind_eq_ok] at h
          obtain ⟨ss, r2, h2, h⟩ := h
          injection h with h
          injection h with hx hr
          subst hr
          exact (ihPL r1 hr1).2 ss _ h2

/-- With fuel at least `8 * length + 8`, no parser function ever runs
out of fuel (each function's constant below reflects its depth in the
same-length call chain). -/
theorem parser_no_fuelOut : ∀ f : Nat,
    (∀ toks e, 8 * toks.length + 1 ≤ f → factorF f toks = .error e →
       e ≠ .fuelOut) ∧
    (∀ acc toks e, 8 * toks.length + 1 ≤ f → termLoopF f acc toks = .error e →
       e ≠ .fuelOut) ∧
    (∀ toks e, 8 * toks.length + 2 ≤ f → termF f toks = .error e →
       e ≠ .fuelOut) ∧
    (∀ acc toks e, 8 * toks.length + 1 ≤ f → exprLoopF f acc toks = .error e →
       e ≠ .fuelOut) ∧
    (∀ toks e, 8 * toks.length + 3 ≤ f → expressionF f toks = .error e →
       e ≠ .fuelOut) ∧
    (∀ toks e, 8 * toks.length + 4 ≤ f → printStatementF f toks = .error e →
       e ≠ .fuelOut) ∧
    (∀ toks e, 8 * toks.length + 4 ≤ f →
       assignmentStatementF f toks = .error e → e ≠ .fuelOut) ∧
    (∀ toks e, 8 * toks.length + 6 ≤ f → blockBodyF f toks = .error e →
       e ≠ .fuelOut) ∧
    (∀ toks e, 8 * toks.length + 4 ≤ f → blockF f toks = .error e →
       e ≠ .fuelOut) ∧
    (∀ toks e, 8 * toks.length + 5 ≤ f → statementF f toks = .error e →
       e ≠ .fuelOut) ∧
    (∀ toks e, 8 * toks.length + 6 ≤ f → programLoopF f toks = .error e →
       e ≠ .fuelOut) := by
  intro f
  induction f with
  | zero =>
    refine ⟨?_, ?_, ?_, ?_, ?_, ?_, ?_, ?_, ?_, ?_, ?_⟩ <;> intros <;> omega
  | succ f ih =>
    obtain ⟨ihFac, ihTL, ihT, ihEL, ihE, ihP, ihA, ihBB, ihB, ihS, ihPL⟩ := ih
    obtain ⟨pcFac, pcTL, pcT, pcEL, pcE, pcP, pcA, pcBB, pcB, pcS, pcPL⟩ :=
      parser_consumes f
    refine ⟨?_, ?_, ?_, ?_, ?_, ?_, ?_, ?_, ?_, ?_, ?_⟩
    -- factorF
    · intro toks e hf h
      match toks with
      | [] =>
        simp only [factorF] at h
        injection h with h
        subst h
        simp
      | .lparen :: r0 =>
        simp only [factorF] at h
        rw [pbind_eq_error] at h
        rcases h with h | ⟨node, m, hexp, h2⟩
        · exact ihE r0 e (by simp at hf ⊢; omega) h
        · rw [pbind_eq_error] at h2
          rcases h2 with h2 | ⟨t3, m3, hrp, h3⟩
          · exact eat_error_ne_fuelOut h2
          · exact absurd h3 (by simp)
      | .integer n :: r0 => simp only [factorF] at h; exact absurd h (by simp)
      | .float q :: r0 => simp only [factorF] at h; exact absurd h (by simp)
      | .str s :: r0 => simp only [factorF] at h; exact absurd h (by simp)
      | .identifier s :: r0 =>
        simp only [factorF] at h; exact absurd h (by simp)
      | .keyword s :: r0 =>
        simp only [factorF] at h
        injection h with h
        subst h
        simp
      | .operator s :: r0 =>
        simp only [factorF] at h
        injection h with h
        subst h
        simp
      | .assign :: r0 =>
        simp only [factorF] at h
        injection h with h
        subst h
        simp
      | .semicolon :: r0 =>
        simp only [factorF] at h
        injection h with h
        subst h
        simp
      | .rparen :: r0 =>
        simp only [factorF] at h
        injection h with h
        subst h
        simp
      | .lbrace :: r0 =>
        simp only [factorF] at h
        injection h with h
        subst h
        simp
      | .rbrace :: r0 =>
        simp only [factorF] at h
        injection h with h
        subst h
        simp
      | .eof :: r0 =>
        simp only [factorF] at h
        injection h with h
        subst h
        simp
    -- termLoopF
    · intro acc toks e hf h
      match toks with
      | [] =>
        simp only [termLoopF] at h
        injection h with h
        subst h
        simp
      | .operator op :: r0 =>
        simp only [termLoopF] at h
        by_cases hop : (op = "*" || op = "/") = true
        · rw [if_pos hop, pbind_eq_error] at h
          rcases h with h | ⟨right, m, hfac, h2⟩
          · exact ihFac r0 e (by simp at hf ⊢; omega) h
          · have hm := (pcFac r0 right m hfac).2
            exact ihTL _ m e (by simp at hf ⊢; omega) h2
        · rw [if_neg hop] at h
          exact absurd h (by simp)
      | .keyword s :: r0 =>
        simp only [termLoopF] at h; exact absurd h (by simp)
      | .identifier s :: r0 =>
        simp only [termLoopF] at h; exact absurd h (by simp)
      | .integer n :: r0 =>
        simp only [termLoopF] at h; exact absurd h (by simp)
      | .float q :: r0 =>
        simp only [termLoopF] at h; exact absurd h (by simp)
      | .str s :: r0 =>
        simp only [termLoopF] at h; exact absurd h (by simp)
      | .assign :: r0 =>
        simp only [termLoopF] at h; exact absurd h (by simp)
      | .semicolon :: r0 =>
        simp only [termLoopF] at h; exact absurd h (by simp)
      | .lparen :: r0 =>
        simp only [termLoopF] at h; exact absurd h (by simp)
      | .rparen :: r0 =>
        simp only [termLoopF] at h; exact absurd h (by simp)
      | .lbrace :: r0 =>
        simp only [termLoopF] at h; exact absurd h (by simp)
      | .rbrace :: r0 =>
        simp only [termLoopF] at h; exact absurd h (by simp)
      | .eof :: r0 =>
        simp only [termLoopF] at h; exact absurd h (by simp)
    -- termF
    · intro toks e hf h
      simp only [termF] at h
      rw [pbind_eq_error] at h
      rcases h with h | ⟨node, m, hfac, h2⟩
      · exact ihFac toks e (by omega) h
      · have hm := (pcFac toks node m hfac).2
        exact ihTL node m e (by omega) h2
    -- exprLoopF
    · intro acc toks e hf h
      match toks with
      | [] =>
        simp only [exprLoopF] at h
        injection h with h
        subst h
        simp
      | .operator op :: r0 =>
        simp only [exprLoopF] at h
        by_cases hop : (op = "+" || op = "-") = true
        · rw [if_pos hop, pbind_eq_error] at h
          rcases h with h | ⟨right, m, hterm, h2⟩
          · exact ihT r0 e (by simp at hf ⊢; omega) h
          · have hm := (pcT r0 right m hterm).2
            exact ihEL _ m e (by simp at hf ⊢; omega) h2
        · rw [if_neg hop] at h
          exact absurd h (by simp)
      | .keyword s :: r0 =>
        simp only [exprLoopF] at h; exact absurd h (by simp)
      | .identifier s :: r0 =>
        simp only [exprLoopF] at h; exact absurd h (by simp)
      | .integer n :: r0 =>
        simp only [exprLoopF] at h; exact absurd h (by simp)
      | .float q :: r0 =>
        simp only [exprLoopF] at h; exact absurd h (by simp)
      | .str s :: r0 =>
        simp only [exprLoopF] at h; exact absurd h (by simp)
      | .assign :: r0 =>
        simp only [exprLoopF] at h; exact absurd h (by simp)
      | .semicolon :: r0 =>
        simp only [exprLoopF] at h; exact absurd h (by simp)
      | .lparen :: r0 =>
        simp only [exprLoopF] at h; exact absurd h (by simp)
      | .rparen :: r0 =>
        simp only [exprLoopF] at h; exact absurd h (by simp)
      | .lbrace :: r0 =>
        simp only [exprLoopF] at h; exact absurd h (by simp)
      | .rbrace :: r0 =>
        simp only [exprLoopF] at h; exact absurd h (by simp)
      | .eof :: r0 =>
        simp only [exprLoopF] at h; exact absurd h (by simp)
    -- expressionF
    · intro toks e hf h
      simp only [expressionF] at h
      rw [pbind_eq_error] at h
      rcases h with h | ⟨node, m, hterm, h2⟩
      · exact ihT toks e (by omega) h
      · have hm := (pcT toks node m hterm).2
        exact ihEL node m e (by omega) h2
    -- printStatementF
    · intro toks e hf h
      simp only [printStatementF] at h
      rw [pbind_eq_error] at h
      rcases h with h | ⟨t1, r1, h1, h⟩
      · exact eat_error_ne_fuelOut h
      · obtain ⟨heq1, _⟩ := eat_eq_ok.mp h1
        rw [pbind_eq_error] at h
        rcases h with h | ⟨t2, r2, h2, h⟩
        · exact eat_error_ne_fuelOut h
        · obtain ⟨heq2, _⟩ := eat_eq_ok.mp h2
          rw [pbind_eq_error] at h
          rcases h with h | ⟨expr, r3, h3, h⟩
          · subst heq1; subst heq2
            exact ihE r2 e (by simp at hf ⊢; omega) h
          · rw [pbind_eq_error] at h
            rcases h with h | ⟨t4, r4, h4, h⟩
            · exact eat_error_ne_fuelOut h
            · rw [pbind_eq_error] at h
              rcases h with h | ⟨t5, r5, h5, h⟩
              · exact eat_error_ne_fuelOut h
              · exact absurd h (by simp)
    -- assignmentStatementF
    · intro toks e hf h
      simp only [assignmentStatementF] at h
      rw [pbind_eq_error] at h
      rcases h with h | ⟨t1, r1, h1, h⟩
      · exact eat_error_ne_fuelOut h
      · obtain ⟨heq1, _⟩ := eat_eq_ok.mp h1
        rw [pbind_eq_error] at h
        rcases h with h | ⟨t2, r2, h2, h⟩
        · exact eat_error_ne_fuelOut h
        · obtain ⟨heq2, _⟩ := eat_eq_ok.mp h2
          rw [pbind_eq_error] at h
          rcases h with h | ⟨expr, r3, h3, h⟩
          · subst heq1; subst heq2
            exact ihE r2 e (by simp at hf ⊢; omega) h
          · rw [pbind_eq_error] at h
            rcases h with h | ⟨t4, r4, h4, h⟩
            · exact eat_error_ne_fuelOut h
            · exact absurd h (by simp)
    -- blockBodyF
    · intro toks e hf h
      have hbody : ∀ (t : Token) (r0 : List Token), toks = t :: r0 →
          (pbind (statementF f toks) fun s r1 =>
            pbind (blockBodyF f r1) fun ss r2 =>
              .ok (StmtList.cons s ss, r2)) = .error e → e ≠ .fuelOut := by
        intro t r0 heq hb
        rw [pbind_eq_error] at hb
        rcases hb with hb | ⟨s1, r1, h1, hb⟩
        · exact ihS toks e (by omega) hb
        · have hr1 := (pcS toks s1 r1 h1).2
          rw [pbind_eq_error] at hb
          rcases hb with hb | ⟨ss, r2, h2, hb⟩
          · exact ihBB r1 e (by omega) hb
          · exact absurd hb (by simp)
      match toks with
      | [] =>
        simp only [blockBodyF] at h
        injection h with h
        subst h
        simp
      | .rbrace :: r0 =>
        simp only [blockBodyF] at h
        exact absurd h (by simp)
      | .keyword s :: r0 =>
        simp only [blockBodyF] at h
        exact hbody _ r0 rfl h
      | .identifier s :: r0 =>
        simp only [blockBodyF] at h
        exact hbody _ r0 rfl h
      | .integer n :: r0 =>
        simp only [blockBodyF] at h
        exact hbody _ r0 rfl h
      | .float q :: r0 =>
        simp only [blockBodyF] at h
        exact hbody _ r0 rfl h
      | .str s :: r0 =>
        simp only [blockBodyF] at h
        exact hbody _ r0 rfl h
      | .operator s :: r0 =>
        simp only [blockBodyF] at h
        exact hbody _ r0 rfl h
      | .assign :: r0 =>
        simp only [blockBodyF] at h
        exact hbody _ r0 rfl h
      | .semicolon :: r0 =>
        simp only [blockBodyF] at h
        exact hbody _ r0 rfl h
      | .lparen :: r0 =>
        simp only [blockBodyF] at h
        exact hbody _ r0 rfl h
      | .rparen :: r0 =>
        simp only [blockBodyF] at h
        exact hbody _ r0 rfl h
      | .lbrace :: r0 =>
        simp only [blockBodyF] at h
        exact hbody _ r0 rfl h
      | .eof :: r0 =>
        simp only [blockBodyF] at h
        exact hbody _ r0 rfl h
    -- blockF
    · intro toks e hf h
      simp only [blockF] at h
      rw [pbind_eq_error] at h
      rcases h with h | ⟨t1, r1, h1, h⟩
      · exact eat_error_ne_fuelOut h
      · obtain ⟨heq1, _⟩ := eat_eq_ok.mp h1
        rw [pbind_eq_error] at h
        rcases h with h | ⟨ss, r2, h2, h⟩
        · subst heq1
          exact ihBB r1 e (by simp at hf ⊢; omega) h
        · rw [pbind_eq_error] at h
          rcases h with h | ⟨t3, r3, h3, h⟩
          · exact eat_error_ne_fuelOut h
          · exact absurd h (by simp)
    -- statementF
    · intro toks e hf h
      match toks with
      | [] =>
        simp only [statementF] at h
        injection h with h
        subst h
        simp
      | .keyword k :: r0 =>
        simp only [statementF] at h
        by_cases hk : k = "print"
        · rw [if_pos hk] at h
          exact ihP _ e (by omega) h
        · rw [if_neg hk] at h
          injection h with h
          subst h
          simp
      | .identifier s :: r0 =>
        simp only [statementF] at h
        exact ihA _ e (by omega) h
      | .lbrace :: r0 =>
        simp only [statementF] at h
        exact ihB _ e (by omega) h
      | .integer n :: r0 =>
        simp only [statementF] at h
        injection h with h
        subst h
        simp
      | .float q :: r0 =>
        simp only [statementF] at h
        injection h with h
        subst h
        simp
      | .str s :: r0 =>
        simp only [statementF] at h
        injection h with h
        subst h
        simp
      | .operator s :: r0 =>
        simp only [statementF] at h
        injection h with h
        subst h
        simp
      | .assign :: r0 =>
        simp only [statementF] at h
        injection h with h
        subst h
        simp
      | .semicolon :: r0 =>
        simp only [statementF] at h
        injection h with h
        subst h
        simp
      | .lparen :: r0 =>
        simp only [statementF] at h
        injection h with h
        subst h
        simp
      | .rparen :: r0 =>
        simp only [statementF] at h
        injection h with h
        subst h
        simp
      | .rbrace :: r0 =>
        simp only [statementF] at h
        injection h with h
        subst h
        simp
      | .eof :: r0 =>
        simp only [statementF] at h
        injection h with h
        subst h
        simp
    -- programLoopF
    · intro toks e hf h
      have hbody : (pbind (statementF f toks) fun s r1 =>
            pbind (programLoopF f r1) fun ss r2 =>
              .ok (StmtList.cons s ss, r2)) = .error e → e ≠ .fuelOut := by
        intro hb
        rw [pbind_eq_error] at hb
        rcases hb with hb | ⟨s1, r1, h1, hb⟩
        · exact ihS toks e (by omega) hb
        · have hr1 := (pcS toks s1 r1 h1).2
          rw [pbind_eq_error] at hb
          rcases hb with hb | ⟨ss, r2, h2, hb⟩
          · exact ihPL r1 e (by omega) hb
          · exact absurd hb (by simp)
      match toks with
      | [] =>
        simp only [programLoopF] at h
        injection h with h
        subst h
        simp
      | .eof :: r0 =>
        simp only [programLoopF] at h
        exact absurd h (by simp)
      | .keyword s :: r0 =>
        simp only [programLoopF] at h
        exact hbody h
      | .identifier s :: r0 =>
        simp only [programLoopF] at h
        exact hbody h
      | .integer n :: r0 =>
        simp only [programLoopF] at h
        exact hbody h
      | .float q :: r0 =>
        simp only [programLoopF] at h
        exact hbody h
      | .str s :: r0 =>
        simp only [programLoopF] at h
        exact hbody h
      | .operator s :: r0 =>
        simp only [programLoopF] at h
        exact hbody h
      | .assign :: r0 =>
        simp only [programLoopF] at h
        exact hbody h
      | .semicolon :: r0 =>
        simp only [programLoopF] at h
        exact hbody h
      | .lparen :: r0 =>
        simp only [programLoopF] at h
        exact hbody h
      | .rparen :: r0 =>
        simp only [programLoopF] at h
        exact hbody h
      | .lbrace :: r0 =>
        simp only [programLoopF] at h
        exact hbody h
      | .rbrace :: r0 =>
        simp only [programLoopF] at h
        exact hbody h

/-- C9: if a block body reaches the `EOF` terminator without meeting a
matching `RBRACE` (the `}` never occurs among the remaining tokens),
the statement loop of `Parser.block` always terminates in a
`SyntaxError` — never a crash, never fuel exhaustion, never a partial
AST; in particular `compile "{ print(x);"` fails with
`Unexpected token: ('EOF', None)`. -/
theorem c9_unterminated_block :
    (∀ (f : Nat) (toks : List Token),
       eofTerm toks → Token.rbrace ∉ toks → 8 * toks.length + 6 ≤ f →
       ∃ e : SynError, blockBodyF f toks = .error e ∧
         e ≠ .noneCrash ∧ e ≠ .fuelOut) ∧
    (∀ (f : Nat) (toks : List Token),
       eofTerm toks → Token.rbrace ∉ toks → 8 * (toks.length + 1) + 4 ≤ f →
       ∃ e : SynError, blockF f (.lbrace :: toks) = .error e ∧
         e ≠ .noneCrash ∧ e ≠ .fuelOut) ∧
    compile "\x7b print(x);" = .error (.synE (.unexpectedToken .eof)) := by
  have main : ∀ (f : Nat) (toks : List Token),
      eofTerm toks → Token.rbrace ∉ toks → 8 * toks.length + 6 ≤ f →
      ∃ e : SynError, blockBodyF f toks = .error e ∧
        e ≠ .noneCrash ∧ e ≠ .fuelOut := by
    intro f toks het hnb hf
    cases hr : blockBodyF f toks with
    | ok p =>
      obtain ⟨ss, rest⟩ := p
      obtain ⟨hsuf, hhd⟩ :=
        (parser_consumes f).2.2.2.2.2.2.2.1 toks ss rest hr
      exact absurd (hsuf.subset (List.mem_of_mem_head? hhd)) hnb
    | error e =>
      refine ⟨e, rfl, ?_, ?_⟩
      · exact ((parser_no_crash f).2.2.2.2.2.2.2.1 toks het).1 e hr
      · exact (parser_no_fuelOut f).2.2.2.2.2.2.2.1 toks e hf hr
  refine ⟨main, ?_, rfl⟩
  intro f toks het hnb hf
  match f, hf with
  | f' + 1, hf =>
    obtain ⟨e, he, hc, hfo⟩ := main f' toks het hnb (by omega)
    refine ⟨e, ?_, hc, hfo⟩
    have hstep : blockF (f' + 1) (.lbrace :: toks) =
        pbind (blockBodyF f' toks) (fun ss r2 =>
          pbind (eat "RBRACE" r2) fun _ r3 => .ok (.blockS ss, r3)) := rfl
    rw [hstep, he]
    rfl

/-- Witness for `c9_unterminated_block`: its hypotheses are
satisfiable, e.g. on the token list containing only the `EOF`
terminator (a `{` immediately followed by end of input). -/
theorem c9_unterminated_block_witness :
    ∃ e : SynError, blockBodyF 14 [Token.eof] = .error e ∧
      e ≠ .noneCrash ∧ e ≠ .fuelOut :=
  c9_unterminated_block.1 14 [Token.eof] ⟨[], rfl⟩ (by decide)
    (by simp)

/-- The only token of kind `RPAREN` is the `)` token. -/
theorem kind_rparen {t : Token} (h : t.kind = "RPAREN") : t = .rparen := by
  cases t <;> first
    | rfl
    | exact absurd h (by simp [Token.kind])

/-- Soundness of the expression parser with respect to the spec
grammar: whatever span a parser function consumes derives, in the
left-associative standard-precedence grammar, exactly the AST the
parser built. -/
theorem parser_sound : ∀ f : Nat,
    (∀ toks x rest, factorF f toks = .ok (x, rest) →
       ∃ used, toks = used ++ rest ∧ FactorD used x) ∧
    (∀ acc toks x rest, termLoopF f acc toks = .ok (x, rest) →
       ∃ used, toks = used ++ rest ∧ TermRestD acc used x) ∧
    (∀ toks x rest, termF f toks = .ok (x, rest) →
       ∃ used, toks = used ++ rest ∧ TermD used x) ∧
    (∀ acc toks x rest, exprLoopF f acc toks = .ok (x, rest) →
       ∃ used, toks = used ++ rest ∧ ExprRestD acc used x) ∧
    (∀ toks x rest, expressionF f toks = .ok (x, rest) →
       ∃ used, toks = used ++ rest ∧ ExprD used x) := by
  intro f
  induction f with
  | zero =>
    refine ⟨?_, ?_, ?_, ?_, ?_⟩
    · intro toks x rest h; simp [factorF] at h
    · intro acc toks x rest h; simp [termLoopF] at h
    · intro toks x rest h; simp [termF] at h
    · intro acc toks x rest h; simp [exprLoopF] at h
    · intro toks x rest h; simp [expressionF] at h
  | succ f ih =>
    obtain ⟨ihFac, ihTL, ihT, ihEL, ihE⟩ := ih
    refine ⟨?_, ?_, ?_, ?_, ?_⟩
    -- factorF
    · intro toks x rest h
      match toks with
      | [] => simp [factorF] at h
      | .integer n :: r0 =>
        simp only [factorF] at h
        injection h with h
        injection h with h1 h2
        subst h1; subst h2
        exact ⟨[.integer n], rfl, FactorD.int n⟩
      | .float q :: r0 =>
        simp only [factorF] at h
        injection h with h
        injection h with h1 h2
        subst h1; subst h2
        exact ⟨[.float q], rfl, FactorD.flt q⟩
      | .str s :: r0 =>
        simp only [factorF] at h
        injection h with h
        injection h with h1 h2
        subst h1; subst h2
        exact ⟨[.str s], rfl, FactorD.strl s⟩
      | .identifier s :: r0 =>
        simp only [factorF] at h
        injection h with h
        injection h with h1 h2
        subst h1; subst h2
        exact ⟨[.identifier s], rfl, FactorD.idn s⟩
      | .lparen :: r0 =>
        simp only [factorF] at h
        rw [pbind_eq_ok] at h
        obtain ⟨node, m, hexp, h2⟩ := h
        rw [pbind_eq_ok] at h2
        obtain ⟨t2, m2, hrp, h3⟩ := h2
        injection h3 with h3
        injection h3 with h31 h32
        subst h31; subst h32
        obtain ⟨heq, hkind⟩ := eat_eq_ok.mp hrp
        have ht2 : t2 = .rparen := kind_rparen hkind
        subst ht2
        obtain ⟨u1, hu1, hd1⟩ := ihE r0 node m hexp
        refine ⟨.lparen :: (u1 ++ [.rparen]), ?_, FactorD.paren hd1⟩
        subst heq
        subst hu1
        simp
      | .keyword s :: r0 => simp [factorF] at h
      | .operator s :: r0 => simp [factorF] at h
      | .assign :: r0 => simp [factorF] at h
      | .semicolon :: r0 => simp [factorF] at h
      | .rparen :: r0 => simp [factorF] at h
      | .lbrace :: r0 => simp [factorF] at h
      | .rbrace :: r0 => simp [factorF] at h
      | .eof :: r0 => simp [factorF] at h
    -- termLoopF
    · intro acc toks x rest h
      match toks with
      | [] => simp [termLoopF] at h
      | .operator op :: r0 =>
        simp only [termLoopF] at h
        by_cases hop : (op = "*" || op = "/") = true
        · rw [if_pos hop, pbind_eq_ok] at h
          obtain ⟨right, m, hfac, h2⟩ := h
          obtain ⟨u1, hu1, hd1⟩ := ihFac r0 right m hfac
          obtain ⟨u2, hu2, hd2⟩ := ihTL _ m x rest h2
          refine ⟨.operator op :: (u1 ++ u2), ?_, ?_⟩
          · subst hu1; subst hu2; simp
          · exact TermRestD.cons acc (by simpa using hop) hd1 hd2
        · rw [if_neg hop] at h
          injection h with h
          injection h with h1 h2
          subst h1; subst h2
          exact ⟨[], rfl, TermRestD.nil acc⟩
      | .keyword s :: r0 =>
        simp only [termLoopF] at h
        injection h with h
        injection h with h1 h2
        subst h1; subst h2
        exact ⟨[], rfl, TermRestD.nil acc⟩
      | .identifier s :: r0 =>
        simp only [termLoopF] at h
        injection h with h
        injection h with h1 h2
        subst h1; subst h2
        exact ⟨[], rfl, TermRestD.nil acc⟩
      | .integer n :: r0 =>
        simp only [termLoopF] at h
        injection h with h
        injection h with h1 h2
        subst h1; subst h2
        exact ⟨[], rfl, TermRestD.nil acc⟩
      | .float q :: r0 =>
        simp only [termLoopF] at h
        injection h with h
        injection h with h1 h2
        subst h1; subst h2
        exact ⟨[], rfl, TermRestD.nil acc⟩
      | .str s :: r0 =>
        simp only [termLoopF] at h
        injection h with h
        injection h with h1 h2
        subst h1; subst h2
        exact ⟨[], rfl, TermRestD.nil acc⟩
      | .assign :: r0 =>
        simp only [termLoopF] at h
        injection h with h
        injection h with h1 h2
        subst h1; subst h2
        exact ⟨[], rfl, TermRestD.nil acc⟩
      | .semicolon :: r0 =>
        simp only [termLoopF] at h
        injection h with h
        injection h with h1 h2
        subst h1; subst h2
        exact ⟨[], rfl, TermRestD.nil acc⟩
      | .lparen :: r0 =>
        simp only [termLoopF] at h
        injection h with h
        injection h with h1 h2
        subst h1; subst h2
        exact ⟨[], rfl, TermRestD.nil acc⟩
      | .rparen :: r0 =>
        simp only [termLoopF] at h
        injection h with h
        injection h with h1 h2
        subst h1; subst h2
        exact ⟨[], rfl, TermRestD.nil acc⟩
      | .lbrace :: r0 =>
        simp only [termLoopF] at h
        injection h with h
        injection h with h1 h2
        subst h1; subst h2
        exact ⟨[], rfl, TermRestD.nil acc⟩
      | .rbrace :: r0 =>
        simp only [termLoopF] at h
        injection h with h
        injection h with h1 h2
        subst h1; subst h2
        exact ⟨[], rfl, TermRestD.nil acc⟩
      | .eof :: r0 =>
        simp only [termLoopF] at h
        injection h with h
        injection h with h1 h2
        subst h1; subst h2
        exact ⟨[], rfl, TermRestD.nil acc⟩
    -- termF
    · intro toks x rest h
      simp only [termF] at h
      rw [pbind_eq_ok] at h
      obtain ⟨node, m, hfac, h2⟩ := h
      obtain ⟨u1, hu1, hd1⟩ := ihFac toks node m hfac
      obtain ⟨u2, hu2, hd2⟩ := ihTL node m x rest h2
      refine ⟨u1 ++ u2, ?_, TermD.mk hd1 hd2⟩
      subst hu1; subst hu2; simp
    -- exprLoopF
    · intro acc toks x rest h
      match toks with
      | [] => simp [exprLoopF] at h
      | .operator op :: r0 =>
        simp only [exprLoopF] at h
        by_cases hop : (op = "+" || op = "-") = true
        · rw [if_pos hop, pbind_eq_ok] at h
          obtain ⟨right, m, hterm, h2⟩ := h
          obtain ⟨u1, hu1, hd1⟩ := ihT r0 right m hterm
          obtain ⟨u2, hu2, hd2⟩ := ihEL _ m x rest h2
          refine ⟨.operator op :: (u1 ++ u2), ?_, ?_⟩
          · subst hu1; subst hu2; simp
          · exact ExprRestD.cons acc (by simpa using hop) hd1 hd2
        · rw [if_neg hop] at h
          injection h with h
          injection h with h1 h2
          subst h1; subst h2
          exact ⟨[], rfl, ExprRestD.nil acc⟩
      | .keyword s :: r0 =>
        simp only [exprLoopF] at h
        injection h with h
        injection h with h1 h2
        subst h1; subst h2
        exact ⟨[], rfl, ExprRestD.nil acc⟩
      | .identifier s :: r0 =>
        simp only [exprLoopF] at h
        injection h with h
        injection h with h1 h2
        subst h1; subst h2
        exact ⟨[], rfl, ExprRestD.nil acc⟩
      | .integer n :: r0 =>
        simp only [exprLoopF] at h
        injection h with h
        injection h with h1 h2
        subst h1; subst h2
        exact ⟨[], rfl, ExprRestD.nil acc⟩
      | .float q :: r0 =>
        simp only [exprLoopF] at h
        injection h with h
        injection h with h1 h2
        subst h1; subst h2
        exact ⟨[], rfl, ExprRestD.nil acc⟩
      | .str s :: r0 =>
        simp only [exprLoopF] at h
        injection h with h
        injection h with h1 h2
        subst h1; subst h2
        exact ⟨[], rfl, ExprRestD.nil acc⟩
      | .assign :: r0 =>
        simp only [exprLoopF] at h
        injection h with h
        injection h with h1 h2
        subst h1; subst h2
        exact ⟨[], rfl, ExprRestD.nil acc⟩
      | .semicolon :: r0 =>
        simp only [exprLoopF] at h
        injection h with h
        injection h with h1 h2
        subst h1; subst h2
        exact ⟨[], rfl, ExprRestD.nil acc⟩
      | .lparen :: r0 =>
        simp only [exprLoopF] at h
        injection h with h
        injection h with h1 h2
        subst h1; subst h2
        exact ⟨[], rfl, ExprRestD.nil acc⟩
      | .rparen :: r0 =>
        simp only [exprLoopF] at h
        injection h with h
        injection h with h1 h2
        subst h1; subst h2
        exact ⟨[], rfl, ExprRestD.nil acc⟩
      | .lbrace :: r0 =>
        simp only [exprLoopF] at h
        injection h with h
        injection h with h1 h2
        subst h1; subst h2
        exact ⟨[], rfl, ExprRestD.nil acc⟩
      | .rbrace :: r0 =>
        simp only [exprLoopF] at h
        injection h with h
        injection h with h1 h2
        subst h1; subst h2
        exact ⟨[], rfl, ExprRestD.nil acc⟩
      | .eof :: r0 =>
        simp only [exprLoopF] at h
        injection h with h
        injection h with h1 h2
        subst h1; subst h2
        exact ⟨[], rfl, ExprRestD.nil acc⟩
    -- expressionF
    · intro toks x rest h
      simp only [expressionF] at h
      rw [pbind_eq_ok] at h
      obtain ⟨node, m, hterm, h2⟩ := h
      obtain ⟨u1, hu1, hd1⟩ := ihT toks node m hterm
      obtain ⟨u2, hu2, hd2⟩ := ihEL node m x rest h2
      refine ⟨u1 ++ u2, ?_, ExprD.mk hd1 hd2⟩
      subst hu1; subst hu2; simp

/-- C3: for expressions over `+ - * /`, literals, identifiers and
parentheses, the parser's output always carries a derivation in the
left-associative, standard-precedence spec grammar (`ExprD`), and
`visit_BinaryExpression` emits every node fully parenthesized — so the
nesting of the emitted parentheses is exactly that grouping; in
particular `a + b * c` generates `(a + (b * c))` and `a - b - c`
generates `((a - b) - c)`. -/
theorem c3_precedence_associativity :
    (∀ (f : Nat) (toks : List Token) (e : Expr) (rest : List Token),
       expressionF f toks = .ok (e, rest) →
       ∃ used, toks = used ++ rest ∧ ExprD used e) ∧
    (∀ (op : String) (l r : Expr),
       genExpr (.bin op l r) =
         "(" ++ genExpr l ++ " " ++ op ++ " " ++ genExpr r ++ ")") ∧
    (expressionF 64 [.identifier "a", .operator "+", .identifier "b",
        .operator "*", .identifier "c", .eof] =
      .ok (.bin "+" (.ident "a") (.bin "*" (.ident "b") (.ident "c")),
        [.eof]) ∧
     genExpr (.bin "+" (.ident "a") (.bin "*" (.ident "b") (.ident "c"))) =
       "(a + (b * c))") ∧
    (expressionF 64 [.identifier "a", .operator "-", .identifier "b",
        .operator "-", .identifier "c", .eof] =
      .ok (.bin "-" (.bin "-" (.ident "a") (.ident "b")) (.ident "c"),
        [.eof]) ∧
     genExpr (.bin "-" (.bin "-" (.ident "a") (.ident "b")) (.ident "c")) =
       "((a - b) - c)") :=
  ⟨fun f toks e rest h => (parser_sound f).2.2.2.2 toks e rest h,
   fun _ _ _ => rfl, ⟨rfl, rfl⟩, ⟨rfl, rfl⟩⟩

/-- Witness for `c3_precedence_associativity`: its hypothesis is
satisfiable, e.g. on the token spans of `a + b * c`. -/
theorem c3_precedence_associativity_witness :
    ∃ used, ([Token.identifier "a", .operator "+", .identifier "b",
        .operator "*", .identifier "c", .eof] : List Token) =
          used ++ [Token.eof] ∧
      ExprD used (.bin "+" (.ident "a") (.bin "*" (.ident "b") (.ident "c"))) :=
  c3_precedence_associativity.1 64
    [.identifier "a", .operator "+", .identifier "b", .operator "*",
      .identifier "c", .eof]
    (.bin "+" (.ident "a") (.bin "*" (.ident "b") (.ident "c"))) [.eof] rfl

end Gemstone
